import Mathlib

/-!
# Verification of the bookish-site credential / reconciliation core

A shallow embedding of the repository's core logic:

* `seed_core.js` — BIP39 mnemonic generation/validation and the encrypted
  seed record (`storeSeed` / `retrieveSeed`);
* `storage_manager.js` / `storage_constants.js` — the localStorage layer
  and the bulk clear operations;
* `passkey_protection.js` — passkey enrollment for an existing account;
* `cache.js` — the IndexedDB entry cache and its reconciliation
  (`applyRemote`), duplicate detection and the ops queue;
* the replay loop of the main app module (`replayOps`).

Conventions used throughout:

* a mnemonic is modelled as its list of word indices (`List Nat`, each
  index `< 2048` standing for a word of the BIP39 English wordlist);
* SHA-256 is kept abstract: definitions take the hash as a function
  parameter, since no claim depends on concrete digest values;
* the IndexedDB object store is a `List Entry` kept in ascending primary
  key (`id`) order — IndexedDB cursors traverse records in exactly that
  order, and `put` replaces the record with the same key;
* JavaScript string truthiness is modelled explicitly (`""`/null are
  falsy), and `JSON.stringify`/`parse` round-trips are the identity.
-/

namespace Bookish

/-! ## BIP39 model (seed_core.js and the `@scure/bip39` contract)

`generateMnemonic`/`validateMnemonic` come from the external
`@scure/bip39` package (not part of the repository source); they are
modelled from the spec: a mnemonic encodes `ENT` entropy bits followed by
`ENT/32` checksum bits (the leading bits of SHA-256 of the entropy),
grouped big-endian into 11-bit word indices. -/

/-- Value of a bit list read most-significant-bit first. -/
def bitsToNat (l : List Bool) : Nat :=
  l.foldl (fun n b => 2 * n + (if b then 1 else 0)) 0

/-- Big-endian bits of `n`, width `w` (most significant first). -/
def natToBits : Nat → Nat → List Bool
  | 0, _ => []
  | w + 1, n => natToBits w (n / 2) ++ [n % 2 == 1]

/-- Group a bit string into 11-bit word indices (big-endian within each
group), as BIP39 does for entropy-plus-checksum strings. -/
def bitsToWords : List Bool → List Nat
  | b0 :: b1 :: b2 :: b3 :: b4 :: b5 :: b6 :: b7 :: b8 :: b9 :: b10 :: rest =>
      bitsToNat [b0, b1, b2, b3, b4, b5, b6, b7, b8, b9, b10] :: bitsToWords rest
  | [] => []
  | l => [bitsToNat l]

/-- Modelled from the spec: `@scure/bip39` `generateMnemonic` on given
entropy bits — append the first `entropy.length / 32` bits of
`sha(entropy)` as checksum and split into 11-bit word indices.
`sha` abstracts SHA-256 on bit strings (256 output bits). -/
def generateMnemonic (sha : List Bool → List Bool) (entropy : List Bool) : List Nat :=
  bitsToWords (entropy ++ (sha entropy).take (entropy.length / 32))

/-- Modelled from the spec: `@scure/bip39` `validateMnemonic` — the word
count must be one of 12/15/18/21/24, every word must be in the wordlist
(index `< 2048`), and the trailing checksum bits must equal the leading
bits of `sha` of the entropy part. -/
def validateMnemonic (sha : List Bool → List Bool) (m : List Nat) : Bool :=
  ((m.length == 12) || (m.length == 15) || (m.length == 18) ||
      (m.length == 21) || (m.length == 24))
  && m.all (fun w => decide (w < 2048))
  && (let bits := m.flatMap (natToBits 11)
      let entLen := m.length * 11 * 32 / 33
      bits.drop entLen == (sha (bits.take entLen)).take (bits.length - entLen))

/-- `seed_core.js` `generateSeed`: a fresh 12-word mnemonic from 128 bits
of entropy (the entropy source is a parameter of the model). -/
def generateSeed (sha : List Bool → List Bool) (entropy : List Bool) : List Nat :=
  generateMnemonic sha entropy

/-- `seed_core.js` `isValidSeed`. -/
def isValidSeed (sha : List Bool → List Bool) (m : List Nat) : Bool :=
  validateMnemonic sha m

/-! ### Bit/word round-trip lemmas -/

theorem natToBits_length (w n : Nat) : (natToBits w n).length = w := by
  induction w generalizing n with
  | zero => simp [natToBits]
  | succ w ih => simp [natToBits, ih]

theorem bitsToNat_append_singleton (l : List Bool) (b : Bool) :
    bitsToNat (l ++ [b]) = 2 * bitsToNat l + (if b then 1 else 0) := by
  simp [bitsToNat, List.foldl_append]

theorem bitsToNat_lt (l : List Bool) : bitsToNat l < 2 ^ l.length := by
  induction l using List.reverseRecOn with
  | nil => simp [bitsToNat]
  | append_singleton xs b ih =>
      rw [bitsToNat_append_singleton]
      simp only [List.length_append, List.length_singleton]
      cases b <;> (simp; omega)

theorem natToBits_bitsToNat (l : List Bool) :
    natToBits l.length (bitsToNat l) = l := by
  induction l using List.reverseRecOn with
  | nil => simp [natToBits, bitsToNat]
  | append_singleton xs b ih =>
      rw [bitsToNat_append_singleton]
      simp only [List.length_append, List.length_singleton]
      have h2 : (2 * bitsToNat xs + (if b then 1 else 0)) / 2 = bitsToNat xs := by
        cases b <;> simp <;> omega
      have h3 : ((2 * bitsToNat xs + (if b then 1 else 0)) % 2 == 1) = b := by
        cases b <;> simp [Nat.mul_add_mod]
      rw [natToBits, h2, h3, ih]

theorem bitsToWords_cons11 (b0 b1 b2 b3 b4 b5 b6 b7 b8 b9 b10 : Bool)
    (rest : List Bool) :
    bitsToWords (b0 :: b1 :: b2 :: b3 :: b4 :: b5 :: b6 :: b7 :: b8 :: b9 :: b10 :: rest)
      = bitsToNat [b0, b1, b2, b3, b4, b5, b6, b7, b8, b9, b10] :: bitsToWords rest := by
  rfl

/-- Splitting a bit string of length `11 * k` into words and expanding
each word back to 11 bits is the identity; the words are `k` many and
all below `2048`. -/
theorem bitsToWords_spec (k : Nat) :
    ∀ l : List Bool, l.length = 11 * k →
      (bitsToWords l).flatMap (natToBits 11) = l ∧
      (bitsToWords l).length = k ∧
      ∀ w ∈ bitsToWords l, w < 2048 := by
  induction k with
  | zero =>
      intro l hl
      have : l = [] := List.length_eq_zero.mp (by omega)
      subst this
      simp [bitsToWords]
  | succ k ih =>
      intro l hl
      rcases l with _ | ⟨b0, _ | ⟨b1, _ | ⟨b2, _ | ⟨b3, _ | ⟨b4, _ | ⟨b5, _ | ⟨b6, _ | ⟨b7, _ | ⟨b8, _ | ⟨b9, _ | ⟨b10, rest⟩⟩⟩⟩⟩⟩⟩⟩⟩⟩⟩
      all_goals try (exfalso; simp only [List.length_cons, List.length_nil] at hl; omega)
      simp only [List.length_cons] at hl
      have hrest : rest.length = 11 * k := by omega
      obtain ⟨h1, h2, h3⟩ := ih rest hrest
      rw [bitsToWords_cons11]
      refine ⟨?_, by simpa using h2, ?_⟩
      · have hhead : natToBits 11 (bitsToNat [b0, b1, b2, b3, b4, b5, b6, b7, b8, b9, b10])
            = [b0, b1, b2, b3, b4, b5, b6, b7, b8, b9, b10] := by
          have := natToBits_bitsToNat [b0, b1, b2, b3, b4, b5, b6, b7, b8, b9, b10]
          simpa using this
        simp [List.flatMap_cons, hhead, h1]
      · intro w hw
        rcases List.mem_cons.mp hw with h | h
        · subst h
          have := bitsToNat_lt [b0, b1, b2, b3, b4, b5, b6, b7, b8, b9, b10]
          simpa using this
        · exact h3 w h

/-- Core property behind C9: a mnemonic generated from 128 entropy bits
validates, has 12 words, and its first 128 data bits are the entropy. -/
theorem generateSeed_valid (sha : List Bool → List Bool) (entropy : List Bool)
    (hent : entropy.length = 128) (hsha : (sha entropy).length = 256) :
    isValidSeed sha (generateSeed sha entropy) = true ∧
    (generateSeed sha entropy).length = 12 ∧
    ((generateSeed sha entropy).flatMap (natToBits 11)).take 128 = entropy := by
  have hdiv : entropy.length / 32 = 4 := by rw [hent]
  have hbitslen : (entropy ++ (sha entropy).take (entropy.length / 32)).length = 11 * 12 := by
    simp [hdiv, hent, hsha]
  obtain ⟨hflat, hlen, hbound⟩ :=
    bitsToWords_spec 12 (entropy ++ (sha entropy).take (entropy.length / 32)) hbitslen
  have hgen : generateSeed sha entropy
      = bitsToWords (entropy ++ (sha entropy).take (entropy.length / 32)) := rfl
  have htake : (entropy ++ (sha entropy).take (entropy.length / 32)).take 128 = entropy := by
    conv_lhs => rw [show (128 : Nat) = entropy.length from hent.symm]
    exact List.take_left entropy _
  have hdrop : (entropy ++ (sha entropy).take (entropy.length / 32)).drop 128
      = (sha entropy).take (entropy.length / 32) := by
    conv_lhs => rw [show (128 : Nat) = entropy.length from hent.symm]
    exact List.drop_left entropy _
  refine ⟨?_, by rw [hgen]; exact hlen, by rw [hgen, hflat]; exact htake⟩
  rw [isValidSeed, validateMnemonic, hgen]
  have hall : (bitsToWords (entropy ++ (sha entropy).take (entropy.length / 32))).all
      (fun w => decide (w < 2048)) = true := by
    rw [List.all_eq_true]
    intro w hw
    exact decide_eq_true (hbound w hw)
  rw [hlen, hflat, hall]
  have hEntLen : 12 * 11 * 32 / 33 = 128 := by norm_num
  rw [hEntLen]
  simp only []
  rw [htake, hdrop, hbitslen, hdiv]
  simp

/-! ## crypto_core.js (authenticated encryption), modelled from the spec

`crypto_core.js` is not part of the source tree; only its interface is
used by `seed_core.js` and `passkey_protection.js`. Modelled from the
spec: `encryptJson`/`decryptJson` are AES-256-GCM with a fresh IV —
decryption with the same key recovers the payload, decryption with any
other key fails ("could not decrypt"), and ciphertexts reveal nothing we
need to model. An `EncBlob` stands for the serialized
iv/tag/ciphertext string. -/

/-- Modelled from the spec: an AES-GCM ciphertext produced by
`encryptJson key payload` (the serialized iv|tag|ciphertext blob). -/
structure EncBlob (α : Type) where
  key : String
  payload : α
deriving DecidableEq, Repr

/-- Modelled from the spec: `crypto_core.js` `encryptJson`. -/
def encryptJson {α : Type} (key : String) (payload : α) : EncBlob α :=
  ⟨key, payload⟩

/-- Modelled from the spec: `crypto_core.js` `decryptJson` — AES-GCM
authenticated decryption succeeds exactly under the encryption key. -/
def decryptJson {α : Type} (key : String) (blob : EncBlob α) : Except String α :=
  if blob.key == key then .ok blob.payload else .error "could not decrypt"

/-! ## seed_core.js — the encrypted seed record -/

/-- The JSON payload encrypted by `storeSeed`:
`{ mnemonic, created, wordCount }`. -/
structure SeedPayload where
  mnemonic : List Nat
  created : Nat
  wordCount : Nat
deriving DecidableEq, Repr

/-- The v2 account record written to
`localStorage[ACCOUNT_STORAGE_KEY]` by `storeSeed`. -/
structure AccountRecord where
  version : Nat
  enc : EncBlob SeedPayload
  credentialId : String
  derivation : String
  wordCount : Nat
  created : Nat
deriving DecidableEq, Repr

/-- `seed_core.js` `storeSeed`: validate the mnemonic, encrypt it with
the PRF-derived key and persist the v2 account record. The stored
account slot is `st`; `now` is `Date.now()`. -/
def storeSeed (sha : List Bool → List Bool) (mnemonic : List Nat)
    (prfEncryptionKey credentialId : String) (now : Nat)
    (st : Option AccountRecord) : Except String (Option AccountRecord) :=
  if !isValidSeed sha mnemonic then .error "Invalid BIP39 mnemonic"
  else
    .ok (some
      { version := 2
        enc := encryptJson prfEncryptionKey
          { mnemonic := mnemonic, created := now, wordCount := 12 }
        credentialId := credentialId
        derivation := "prf"
        wordCount := 12
        created := now })

/-- `seed_core.js` `retrieveSeed`: load the account record, check it is
a v2 PRF record, decrypt with the key produced by `authenticateWithPRF`
(passed as `encryptionKey`) and return the mnemonic. -/
def retrieveSeed (st : Option AccountRecord) (encryptionKey : String) :
    Except String (List Nat) :=
  match st with
  | none => .error "No account found. Please create or import an account first."
  | some accountRecord =>
      if accountRecord.version == 2 && accountRecord.derivation == "prf" then
        (decryptJson encryptionKey accountRecord.enc).map (fun d => d.mnemonic)
      else
        .error "Account is not PRF-based (v1 account). Please create a new account."

/-! ## localStorage model

`localStorage` is a string-keyed store. Values are JSON strings; a
`LSVal` stands for the serialized form of the stored object
(serialization is injective per shape, so the typed constructors model
`JSON.stringify` faithfully for our purposes). -/

/-- Passkey metadata persisted by
`passkey_protection.js` `storePasskeyMetadata`. -/
structure PasskeyMeta where
  version : Nat
  credentialId : String
  displayName : String
  createdAt : Nat
  prfEnabled : Bool
deriving DecidableEq, Repr

/-- The payload `passkey_protection.js` encrypts:
`{ mnemonic, encrypted }`. -/
structure PasskeyPayload where
  mnemonic : List Nat
  encrypted : Nat
deriving DecidableEq, Repr

/-- The account object persisted by
`passkey_protection.js` `protectAccountWithPasskey`. -/
structure AccountData where
  version : Nat
  derivation : String
  enc : EncBlob PasskeyPayload
  credentialId : String
  created : Nat
deriving DecidableEq, Repr

/-- A value stored in localStorage (stands for its JSON string). -/
inductive LSVal where
  | str : String → LSVal
  | acct : AccountData → LSVal
  | pk : PasskeyMeta → LSVal
deriving DecidableEq, Repr

/-- The localStorage contents: an association of keys to values. -/
abbrev LocalStore := List (String × LSVal)

def getItem (k : String) (st : LocalStore) : Option LSVal :=
  (st.find? (fun p => p.1 == k)).map (fun p => p.2)

def setItem (k : String) (v : LSVal) (st : LocalStore) : LocalStore :=
  (st.filter (fun p => !(p.1 == k))) ++ [(k, v)]

def removeItem (k : String) (st : LocalStore) : LocalStore :=
  st.filter (fun p => !(p.1 == k))

/-! ## storage_constants.js (src/unnamed/part_000) -/

def ACCOUNT_STORAGE_KEY : String := "bookish.account"
def PASSKEY_STORAGE_KEY : String := "bookish.passkey"
def SEED_SHOWN_KEY : String := "bookish.seed.shown"
def SYM_KEY_STORAGE_KEY : String := "bookish.sym"
def SESSION_ENC_STORAGE_KEY : String := "bookish.account.sessionEnc"
def PRF_KEY_STORAGE_KEY : String := "bookish.prfKey"
def WALLET_STORAGE_KEY : String := "bookish.wallet"
def EVM_WALLET_STORAGE_KEY : String := "bookish.evmWallet.v1"
def MANUAL_SEED_STORAGE_KEY : String := "bookish.seed.manual"

/-! ## storage_manager.js -/

namespace StorageManager

/-- `STORAGE_KEYS.ACCOUNT` of storage_manager.js. -/
def KEY_ACCOUNT : String := "bookish.account"
def KEY_SYM_KEY : String := "bookish.sym"
def KEY_SESSION_SEED : String := "bookish.account.sessionEnc"
def KEY_MANUAL_SEED : String := "bookish.seed.manual"
def KEY_PASSKEY : String := "bookish.passkey"
def KEY_SEED_SHOWN : String := "bookish.seed.shown"
def KEY_PRF_KEY : String := "bookish.prf.key"
def KEY_EVM_WALLET : String := "bookish.evmWallet.v1"

/-- `Object.values(STORAGE_KEYS)` of storage_manager.js. -/
def STORAGE_KEYS_VALUES : List String :=
  [KEY_ACCOUNT, KEY_SYM_KEY, KEY_SESSION_SEED, KEY_MANUAL_SEED,
   KEY_PASSKEY, KEY_SEED_SHOWN, KEY_PRF_KEY, KEY_EVM_WALLET]

def clearAccount (st : LocalStore) : LocalStore := removeItem KEY_ACCOUNT st

def clearAuth (st : LocalStore) : LocalStore :=
  removeItem KEY_PRF_KEY (removeItem KEY_SESSION_SEED (removeItem KEY_SYM_KEY st))

def clearWallet (st : LocalStore) : LocalStore := removeItem KEY_EVM_WALLET st

def clearPasskey (st : LocalStore) : LocalStore := removeItem KEY_PASSKEY st

def clearManualSeed (st : LocalStore) : LocalStore := removeItem KEY_MANUAL_SEED st

def clearSeedShown (st : LocalStore) : LocalStore := removeItem KEY_SEED_SHOWN st

/-- storage_manager.js `clearSession` (logout path). -/
def clearSession (st : LocalStore) : LocalStore :=
  clearSeedShown (clearManualSeed (clearPasskey (clearWallet (clearAccount (clearAuth st)))))

/-- storage_manager.js `clearAll` — removes every `STORAGE_KEYS` value. -/
def clearAll (st : LocalStore) : LocalStore :=
  STORAGE_KEYS_VALUES.foldl (fun s k => removeItem k s) st

end StorageManager

/-- Modelled from the spec: `crypto_core.js` `storePRFKey` — caches the
PRF-derived key for the session under `PRF_KEY_STORAGE_KEY`
(`storage_constants.js`), so repeat decryptions need no new passkey
prompt. `crypto_core.js` itself is not in the source tree; the key
constant is. -/
def storePRFKey (key : String) (st : LocalStore) : LocalStore :=
  setItem PRF_KEY_STORAGE_KEY (LSVal.str key) st

/-! ## passkey_protection.js -/

namespace PasskeyProtection

/-- `passkey_protection.js` `storePasskeyMetadata`. -/
def storePasskeyMetadata (credentialId displayName : String) (createdAt : Nat)
    (st : LocalStore) : LocalStore :=
  setItem PASSKEY_STORAGE_KEY
    (LSVal.pk { version := 2, credentialId := credentialId,
                displayName := displayName, createdAt := createdAt,
                prfEnabled := true }) st

/-- `passkey_protection.js` `protectAccountWithPasskey`. The WebAuthn
create ceremony (`createPRFPasskey`) is an external interaction; its
outcome is the `ceremony` argument: `.ok (encryptionKey, credentialId)`
on success, `.error` when creation is cancelled, times out, or PRF is
unsupported. Returns the localStorage state after the call together
with the call's result. -/
def protectAccountWithPasskey
    (ceremony : Except String (String × String))
    (seed : List Nat) (displayName : String) (now : Nat)
    (st : LocalStore) : LocalStore × Except String String :=
  match ceremony with
  | .error e => (st, .error e)
  | .ok (encryptionKey, credentialId) =>
      let st1 := storePRFKey encryptionKey st
      let encryptedSeed := encryptJson encryptionKey
        ({ mnemonic := seed, encrypted := now } : PasskeyPayload)
      let accountData : AccountData :=
        { version := 2, derivation := "prf", enc := encryptedSeed,
          credentialId := credentialId, created := now }
      let st2 := setItem ACCOUNT_STORAGE_KEY (LSVal.acct accountData) st1
      let st3 := storePasskeyMetadata credentialId displayName now st2
      (st3, .ok credentialId)

end PasskeyProtection

/-! ## cache.js — the IndexedDB entry cache

The entry store is modelled as a `List Entry` in ascending primary-key
(`id`) order: IndexedDB cursors yield records in key order, and `put`
replaces the record with the same key (inserting otherwise). A
well-formed store has pairwise-distinct ids (`keyPath: 'id'` enforces
this). SHA-256 is the abstract parameter `sha256Hex`. -/

namespace Cache

/-- A record of the `entries` object store. Absent JS fields are the
falsy defaults: `txid: null ↦ none`, absent strings `↦ ""`,
absent flags `↦ false`. -/
structure Entry where
  id : String
  txid : Option String
  title : String
  author : String
  edition : String
  format : String
  dateRead : String
  coverImage : String
  mimeType : String
  contentHash : String
  createdAt : Nat
  status : String
  pending : Bool
  seenRemote : Bool
  tombstonedAt : Option Nat
deriving DecidableEq, Repr

/-- A decrypted remote snapshot row handed to `applyRemote`. -/
structure RemoteEntry where
  txid : String
  title : String
  author : String
  edition : String
  format : String
  dateRead : String
  coverImage : String
  mimeType : String
deriving DecidableEq, Repr

/-- A remote tombstone `{txid, ref}`. -/
structure Tombstone where
  txid : String
  ref : Option String
deriving DecidableEq, Repr

/-- JavaScript truthiness of an optional string
(`null`/`undefined`/`""` are falsy). -/
def truthyOpt : Option String → Bool
  | none => false
  | some s => !(s == "")

/-- `p` is a prefix of `s` (JS `String.startsWith`). -/
def strStartsWith (s p : String) : Bool := p.data.isPrefixOf s.data

/-- The hash base of `computeContentHash`:
`title|author|edition|format|dateRead`. -/
def entryBase (e : Entry) : String :=
  e.title ++ "|" ++ e.author ++ "|" ++ e.edition ++ "|" ++ e.format ++ "|" ++ e.dateRead

/-- cache.js `computeContentHash`. -/
def computeContentHash (sha256Hex : String → String) (e : Entry) : String :=
  "sha256-" ++ sha256Hex (entryBase e)

/-- cache.js `ensureContentHash`. -/
def ensureContentHash (sha256Hex : String → String) (e : Entry) : Entry :=
  if (e.contentHash == "") || !(strStartsWith e.contentHash "sha256-") then
    { e with contentHash := computeContentHash sha256Hex e }
  else e

/-- Lexicographic comparison of character lists, agreeing with `<` on
`List Char` (see `charsLt_iff`); written out so the kernel can run it. -/
def charsLt : List Char → List Char → Bool
  | [], [] => false
  | [], _ :: _ => true
  | _ :: _, [] => false
  | a :: as, b :: bs => if a < b then true else if b < a then false else charsLt as bs

/-- IndexedDB key comparison for string keys: lexicographic order,
agreeing with `<` on `String` (see `keyLt_iff`). -/
def keyLt (a b : String) : Bool := charsLt a.data b.data

/-- Insert an entry into a key-ordered store at its key position
(IndexedDB `put` on a fresh key). -/
def insertById (e : Entry) : List Entry → List Entry
  | [] => [e]
  | x :: xs => if keyLt e.id x.id then e :: x :: xs else x :: insertById e xs

/-- IndexedDB `store.put`: replace the record with the same key, or
insert at the key position. -/
def upsert (e : Entry) (s : List Entry) : List Entry :=
  if s.any (fun x => x.id == e.id) then s.map (fun x => if x.id == e.id then e else x)
  else insertById e s

/-- cache.js `putEntry` (ensure the content hash, then `put`). -/
def putEntry (sha256Hex : String → String) (e : Entry) (s : List Entry) : List Entry :=
  upsert (ensureContentHash sha256Hex e) s

/-- cache.js `bulkPut`. -/
def bulkPut (sha256Hex : String → String) (entries : List Entry) (s : List Entry) :
    List Entry :=
  entries.foldl (fun st e => upsert (ensureContentHash sha256Hex e) st) s

/-- cache.js `getAllActive`: cursor over the store, keeping
non-tombstoned records (hence in primary-key order). -/
def getAllActive (s : List Entry) : List Entry :=
  s.filter (fun e => !(e.status == "tombstoned"))

/-- cache.js `listAllRaw`. -/
def listAllRaw (s : List Entry) : List Entry := s

/-- cache.js `findByContentHash`: first record in `(contentHash, id)`
index order whose hash matches; `null` for a falsy hash. In a
key-ordered store this is the first matching record of the list. -/
def findByContentHash (h : String) (s : List Entry) : Option Entry :=
  if h == "" then none
  else (s.filter (fun e => e.contentHash == h)).head?

/-- cache.js `detectDuplicate`. -/
def detectDuplicate (sha256Hex : String → String) (payload : Entry) (s : List Entry) :
    Option Entry :=
  match findByContentHash (computeContentHash sha256Hex payload) s with
  | some existing => if !(existing.status == "tombstoned") then some existing else none
  | none => none

/-- The `localMapByTx.get(tx)` lookup of `applyRemote`: the map is built
from entries with truthy `txid`, later entries overwriting earlier ones. -/
def lookupTx (l : List Entry) (tx : String) : Option Entry :=
  (l.filter (fun e => truthyOpt e.txid)).foldl
    (fun acc e => if e.txid == some tx then some e else acc) none

/-- `tombRefs` of `applyRemote`: the truthy `ref`s of the tombstones. -/
def tombRefsOf (tombstones : List Tombstone) : List String :=
  (tombstones.filterMap (fun t => t.ref)).filter (fun r => !(r == ""))

/-- The fresh entry `applyRemote` builds for an unseen remote row. -/
def newRemoteEntry (now : Nat) (r : RemoteEntry) : Entry :=
  { id := r.txid, txid := some r.txid, title := r.title, author := r.author,
    edition := r.edition, format := r.format, dateRead := r.dateRead,
    coverImage := r.coverImage, mimeType := r.mimeType, contentHash := "",
    createdAt := now, status := "confirmed", pending := false,
    seenRemote := true, tombstonedAt := none }

/-- `store.get(id)`: the record with key `id` (the first one of the
list; unique in a well-formed store). -/
def entryAt (s : List Entry) (i : String) : Option Entry :=
  s.find? (fun x => x.id == i)

/-- The in-place update `applyRemote` performs on a matched local entry:
clear `pending` (confirming it) and set `seenRemote`. -/
def confirmSeen (cur : Entry) : Entry :=
  let c1 := if cur.pending then { cur with pending := false, status := "confirmed" } else cur
  if c1.seenRemote then c1 else { c1 with seenRemote := true }

/-- One iteration of `applyRemote`'s first loop over `remoteList`,
acting on `(store, toAdd)`. A remote row with a tombstoned ref is
skipped; a row matching a local entry (by the `txid` map over the
initial snapshot `localAll`) confirms it in place and records it seen,
writing only when something changed; an unmatched row is queued for
`bulkPut`. -/
def phase1Step (sha256Hex : String → String) (now : Nat) (tombRefs : List String)
    (localAll : List Entry) (acc : List Entry × List Entry) (r : RemoteEntry) :
    List Entry × List Entry :=
  if tombRefs.contains r.txid then acc
  else
    match lookupTx localAll r.txid with
    | some e0 =>
        let cur := (entryAt acc.1 e0.id).getD e0
        if cur.pending || !cur.seenRemote then (putEntry sha256Hex (confirmSeen cur) acc.1, acc.2)
        else acc
    | none => (acc.1, acc.2 ++ [ensureContentHash sha256Hex (newRemoteEntry now r)])

/-- One iteration of `applyRemote`'s second loop over the initial
snapshot: tombstone a local entry whose `txid` has an explicit remote
tombstone. -/
def phase2Step (sha256Hex : String → String) (now : Nat) (tombRefs : List String)
    (s : List Entry) (e : Entry) : List Entry :=
  let cur := (entryAt s e.id).getD e
  if truthyOpt cur.txid && tombRefs.contains (cur.txid.getD "") && !(cur.status == "tombstoned")
  then putEntry sha256Hex { cur with status := "tombstoned", tombstonedAt := some now } s
  else s

/-- cache.js `applyRemote`, final store state: loop over the remote
snapshot (confirm / queue additions), loop over the local snapshot
(tombstone), then `bulkPut` the additions. -/
def applyRemoteStore (sha256Hex : String → String) (now : Nat)
    (remoteList : List RemoteEntry) (tombstones : List Tombstone)
    (s0 : List Entry) : List Entry :=
  let tombRefs := tombRefsOf tombstones
  let localAll := listAllRaw s0
  let p1 := remoteList.foldl (phase1Step sha256Hex now tombRefs localAll) (s0, [])
  let s2 := localAll.foldl (phase2Step sha256Hex now tombRefs) p1.1
  bulkPut sha256Hex p1.2 s2

/-- cache.js `applyRemote`, return value: `getAllActive()` on the
reconciled store. -/
def applyRemote (sha256Hex : String → String) (now : Nat)
    (remoteList : List RemoteEntry) (tombstones : List Tombstone)
    (s0 : List Entry) : List Entry :=
  getAllActive (applyRemoteStore sha256Hex now remoteList tombstones s0)

/-! ### cache.js — the ops queue, and the replay loop of the app module -/

/-- A queued mutation of the `ops` store. -/
structure Op where
  id : String
  type : String
  localId : String
  payload : RemoteEntry
  createdAt : Nat
deriving DecidableEq, Repr

/-- cache.js `listOps`: cursor over the ops store (key order), then a
stable sort ascending by `createdAt` (`out.sort((a,b)=>a.createdAt-b.createdAt)`). -/
def listOps (ops : List Op) : List Op :=
  ops.mergeSort (fun a b => a.createdAt ≤ b.createdAt)

/-- cache.js `removeOp` (`store.delete(id)`; no-op on a falsy id, which
deletes nothing either way). -/
def removeOp (id : String) (ops : List Op) : List Op :=
  ops.filter (fun o => !(o.id == id))

/-- cache.js `replaceProvisional`. -/
def replaceProvisional (sha256Hex : String → String) (oldId : String) (rec : Entry)
    (st : List Entry) : List Entry :=
  let st1 := if !(oldId == "") && !(oldId == rec.id)
             then st.filter (fun e => !(e.id == oldId)) else st
  putEntry sha256Hex rec st1

/-- State carried by one replay pass: the ops store, the entry store,
the in-memory `entries` array, and the trace of operations for which a
remote upload was attempted. -/
structure ReplayResult where
  opsStore : List Op
  entryStore : List Entry
  entries : List Entry
  attempted : List Op
deriving Repr

/-- The `for(const op of ops)` loop of `replayOps` (app module,
src/unnamed/part_003). `upload` is the outcome of
`browserClient.uploadEntry` for a given op: `some txid` on success,
`none` on failure. Only `create` ops are handled; an op whose local
entry is gone or already has a txid is dropped; a successful upload
rewrites the local entry and drops the op; a failed upload `break`s the
loop, leaving the op queued. -/
def replayLoop (sha256Hex : String → String) (upload : Op → Option String) :
    List Op → List Op → List Entry → List Entry → List Op → ReplayResult
  | [], store, est, es, tr => ⟨store, est, es, tr⟩
  | op :: rest, store, est, es, tr =>
    if op.type == "create" then
      match es.find? (fun e => e.id == op.localId) with
      | none => replayLoop sha256Hex upload rest (removeOp op.id store) est es tr
      | some loc =>
        if truthyOpt loc.txid then
          replayLoop sha256Hex upload rest (removeOp op.id store) est es tr
        else
          match upload op with
          | some tx =>
              let oldId := loc.id
              let newRec := { loc with txid := some tx, id := tx, pending := false, status := "confirmed" }
              let es' := es.map (fun e => if e.id == oldId then newRec else e)
              let est' := replaceProvisional sha256Hex oldId newRec est
              replayLoop sha256Hex upload rest (removeOp op.id store) est' es' (tr ++ [op])
          | none => ⟨store, est, es, tr ++ [op]⟩
    else replayLoop sha256Hex upload rest store est es tr

/-- Whether the loop body would reach the remote write for `op` given
the in-memory entries: a `create` op whose local entry exists and has
no txid yet. -/
def needsUpload (es : List Entry) (op : Op) : Bool :=
  op.type == "create" &&
    (match es.find? (fun e => e.id == op.localId) with
     | some l => !truthyOpt l.txid
     | none => false)

/-- `replayOps` (app module): list the queued ops in enqueue order and
run the replay loop over them. -/
def replayOps (sha256Hex : String → String) (upload : Op → Option String)
    (qs : List Op) (est es : List Entry) : ReplayResult :=
  replayLoop sha256Hex upload (listOps qs) qs est es []

/-! ### Store lemmas: `entryAt`, `upsert`, field preservation -/

@[simp] theorem ensureContentHash_id (sha : String → String) (e : Entry) :
    (ensureContentHash sha e).id = e.id := by
  unfold ensureContentHash; split <;> rfl

@[simp] theorem ensureContentHash_txid (sha : String → String) (e : Entry) :
    (ensureContentHash sha e).txid = e.txid := by
  unfold ensureContentHash; split <;> rfl

@[simp] theorem ensureContentHash_status (sha : String → String) (e : Entry) :
    (ensureContentHash sha e).status = e.status := by
  unfold ensureContentHash; split <;> rfl

@[simp] theorem ensureContentHash_pending (sha : String → String) (e : Entry) :
    (ensureContentHash sha e).pending = e.pending := by
  unfold ensureContentHash; split <;> rfl

@[simp] theorem ensureContentHash_seenRemote (sha : String → String) (e : Entry) :
    (ensureContentHash sha e).seenRemote = e.seenRemote := by
  unfold ensureContentHash; split <;> rfl

@[simp] theorem ensureContentHash_createdAt (sha : String → String) (e : Entry) :
    (ensureContentHash sha e).createdAt = e.createdAt := by
  unfold ensureContentHash; split <;> rfl

@[simp] theorem ensureContentHash_tombstonedAt (sha : String → String) (e : Entry) :
    (ensureContentHash sha e).tombstonedAt = e.tombstonedAt := by
  unfold ensureContentHash; split <;> rfl

@[simp] theorem confirmSeen_id (cur : Entry) : (confirmSeen cur).id = cur.id := by
  cases hp : cur.pending <;> cases hs : cur.seenRemote <;> simp [confirmSeen, hp, hs]

@[simp] theorem confirmSeen_txid (cur : Entry) : (confirmSeen cur).txid = cur.txid := by
  cases hp : cur.pending <;> cases hs : cur.seenRemote <;> simp [confirmSeen, hp, hs]

@[simp] theorem confirmSeen_pending (cur : Entry) : (confirmSeen cur).pending = false := by
  cases hp : cur.pending <;> cases hs : cur.seenRemote <;> simp [confirmSeen, hp, hs]

@[simp] theorem confirmSeen_seenRemote (cur : Entry) : (confirmSeen cur).seenRemote = true := by
  cases hp : cur.pending <;> cases hs : cur.seenRemote <;> simp [confirmSeen, hp, hs]

theorem confirmSeen_status (cur : Entry) :
    (confirmSeen cur).status = if cur.pending then "confirmed" else cur.status := by
  cases hp : cur.pending <;> cases hs : cur.seenRemote <;> simp [confirmSeen, hp, hs]

@[simp] theorem confirmSeen_tombstonedAt (cur : Entry) :
    (confirmSeen cur).tombstonedAt = cur.tombstonedAt := by
  cases hp : cur.pending <;> cases hs : cur.seenRemote <;> simp [confirmSeen, hp, hs]

theorem entryAt_mem {s : List Entry} {i : String} {e : Entry}
    (h : entryAt s i = some e) : e ∈ s ∧ e.id = i := by
  unfold entryAt at h
  refine ⟨List.mem_of_find?_eq_some h, ?_⟩
  have := List.find?_some h
  simpa using this

theorem mem_entryAt {s : List Entry} (hnd : (s.map Entry.id).Nodup)
    {e : Entry} (he : e ∈ s) : entryAt s e.id = some e := by
  unfold entryAt
  induction s with
  | nil => cases he
  | cons x xs ih =>
      simp only [List.map_cons, List.nodup_cons] at hnd
      rcases List.mem_cons.mp he with rfl | hmem
      · rw [List.find?_cons_of_pos]
        simp
      · rw [List.find?_cons_of_neg]
        · exact ih hnd.2 hmem
        · simp only [beq_iff_eq]
          intro hx
          exact hnd.1 (hx ▸ List.mem_map_of_mem Entry.id hmem)

theorem mem_insertById {e a : Entry} : ∀ {s : List Entry}, a ∈ insertById e s → a = e ∨ a ∈ s
  | [], h => by simpa [insertById] using h
  | x :: xs, h => by
      unfold insertById at h
      split at h
      · rcases List.mem_cons.mp h with rfl | h2
        · exact .inl rfl
        · exact .inr h2
      · rcases List.mem_cons.mp h with rfl | h2
        · exact .inr (List.mem_cons_self _ _)
        · rcases mem_insertById h2 with h3 | h3
          · exact .inl h3
          · exact .inr (List.mem_cons_of_mem _ h3)

theorem mem_upsert {e : Entry} {s : List Entry} {a : Entry} (h : a ∈ upsert e s) :
    a = e ∨ a ∈ s := by
  unfold upsert at h
  split at h
  · rcases List.mem_map.mp h with ⟨x, hx, hxe⟩
    by_cases hid : (x.id == e.id) = true
    · left; rw [← hxe]; simp [hid]
    · right
      rw [← hxe]
      simp only [hid]
      simpa using hx
  · exact mem_insertById h

theorem entryAt_insertById {e : Entry} {s : List Entry} (i : String)
    (hno : ∀ x ∈ s, x.id ≠ e.id) :
    entryAt (insertById e s) i = if i = e.id then some e else entryAt s i := by
  induction s with
  | nil =>
      by_cases hi : i = e.id
      · simp [insertById, entryAt, List.find?, hi]
      · simp only [insertById, entryAt, if_neg hi, List.find?]
        have : (e.id == i) = false := by
          simp only [beq_eq_false_iff_ne]
          exact fun h => hi h.symm
        simp [this]
  | cons x xs ih =>
      unfold insertById
      split
      · by_cases hi : i = e.id
        · subst hi; simp [entryAt, List.find?]
        · unfold entryAt
          rw [List.find?_cons_of_neg]
          · simp [hi, entryAt]
          · simp only [beq_iff_eq]
            intro hx; exact hi hx.symm
      · have hxne : x.id ≠ e.id := hno x (List.mem_cons_self _ _)
        by_cases hxi : (x.id == i) = true
        · have hxi' : x.id = i := by simpa using hxi
          have hi : i ≠ e.id := by rw [← hxi']; exact hxne
          unfold entryAt
          rw [List.find?_cons_of_pos _ (by simpa using hxi),
              List.find?_cons_of_pos _ (by simpa using hxi)]
          simp [hi]
        · unfold entryAt
          rw [List.find?_cons_of_neg _ (by simpa using hxi),
              List.find?_cons_of_neg _ (by simpa using hxi)]
          exact ih (fun y hy => hno y (List.mem_cons_of_mem _ hy))

theorem entryAt_map_replace_self {s : List Entry} {e : Entry}
    (hin : ∃ x ∈ s, x.id = e.id) :
    entryAt (s.map (fun x => if x.id == e.id then e else x)) e.id = some e := by
  induction s with
  | nil => rcases hin with ⟨x, hx, _⟩; cases hx
  | cons y ys ih =>
      by_cases hy : (y.id == e.id) = true
      · unfold entryAt
        simp only [List.map_cons, hy, if_pos]
        rw [List.find?_cons_of_pos]
        simp
      · unfold entryAt
        simp only [List.map_cons, hy]
        rw [if_neg (by simpa using hy), List.find?_cons_of_neg _ (by simpa using hy)]
        rcases hin with ⟨x, hx, hxe⟩
        rcases List.mem_cons.mp hx with rfl | hmem
        · exact absurd hxe (by simpa using hy)
        · exact ih ⟨x, hmem, hxe⟩

theorem entryAt_map_replace_other {s : List Entry} {e : Entry} {i : String}
    (hi : i ≠ e.id) :
    entryAt (s.map (fun x => if x.id == e.id then e else x)) i = entryAt s i := by
  induction s with
  | nil => rfl
  | cons y ys ih =>
      by_cases hy : (y.id == e.id) = true
      · have hy' : y.id = e.id := by simpa using hy
        unfold entryAt
        simp only [List.map_cons, hy, if_pos]
        rw [List.find?_cons_of_neg _ (by simp; exact fun h => hi h.symm),
            List.find?_cons_of_neg _ (by simp; rw [hy']; exact fun h => hi h.symm)]
        exact ih
      · unfold entryAt
        simp only [List.map_cons, hy]
        rw [if_neg (by simpa using hy)]
        by_cases hyi : (y.id == i) = true
        · rw [List.find?_cons_of_pos _ (by simpa using hyi),
              List.find?_cons_of_pos _ (by simpa using hyi)]
        · rw [List.find?_cons_of_neg _ (by simpa using hyi),
              List.find?_cons_of_neg _ (by simpa using hyi)]
          exact ih

theorem entryAt_upsert (e : Entry) (s : List Entry) (i : String) :
    entryAt (upsert e s) i = if i = e.id then some e else entryAt s i := by
  unfold upsert
  split
  · rename_i hany
    rw [List.any_eq_true] at hany
    obtain ⟨x, hx, hxe⟩ := hany
    by_cases hi : i = e.id
    · subst hi
      rw [if_pos rfl]
      exact entryAt_map_replace_self ⟨x, hx, by simpa using hxe⟩
    · rw [if_neg hi]
      exact entryAt_map_replace_other hi
  · rename_i hany
    rw [List.any_eq_true] at hany
    push_neg at hany
    refine entryAt_insertById i ?_
    intro x hx
    have := hany x hx
    simpa using this

theorem ids_map_replace (e : Entry) (s : List Entry) :
    (s.map (fun x => if x.id == e.id then e else x)).map Entry.id = s.map Entry.id := by
  rw [List.map_map]
  apply List.map_congr_left
  intro x _
  by_cases h : (x.id == e.id) = true
  · have h' : x.id = e.id := by simpa using h
    simp [h, h']
  · have h' : ¬(x.id = e.id) := by simpa using h
    simp [h, h']

theorem self_mem_insertById (e : Entry) : ∀ s : List Entry, e ∈ insertById e s
  | [] => by simp [insertById]
  | x :: xs => by
      unfold insertById
      split
      · exact List.mem_cons_self _ _
      · exact List.mem_cons_of_mem _ (self_mem_insertById e xs)

theorem subset_insertById (e : Entry) : ∀ (s : List Entry) (a : Entry), a ∈ s → a ∈ insertById e s
  | x :: xs, a, ha => by
      unfold insertById
      split
      · exact List.mem_cons_of_mem _ ha
      · rcases List.mem_cons.mp ha with rfl | h2
        · exact List.mem_cons_self _ _
        · exact List.mem_cons_of_mem _ (subset_insertById e xs a h2)

theorem mem_upsert_self (e : Entry) (s : List Entry) : e ∈ upsert e s := by
  unfold upsert
  split
  · rename_i hany
    rw [List.any_eq_true] at hany
    obtain ⟨x, hx, hxe⟩ := hany
    rcases List.mem_map.mp (List.mem_map_of_mem (fun x => if x.id == e.id then e else x) hx)
      with _
    refine List.mem_map.mpr ⟨x, hx, ?_⟩
    simp [hxe]
  · exact self_mem_insertById e s

theorem ids_insertById (e : Entry) (s : List Entry) (j : String) :
    j ∈ (insertById e s).map Entry.id ↔ j = e.id ∨ j ∈ s.map Entry.id := by
  constructor
  · intro h
    rcases List.mem_map.mp h with ⟨a, ha, rfl⟩
    rcases mem_insertById ha with rfl | h2
    · exact .inl rfl
    · exact .inr (List.mem_map_of_mem Entry.id h2)
  · intro h
    rcases h with rfl | h2
    · exact List.mem_map_of_mem Entry.id (self_mem_insertById e s)
    · rcases List.mem_map.mp h2 with ⟨a, ha, rfl⟩
      exact List.mem_map_of_mem Entry.id (subset_insertById e s a ha)

theorem nodup_ids_insertById {e : Entry} {s : List Entry}
    (hnd : (s.map Entry.id).Nodup) (he : e.id ∉ s.map Entry.id) :
    ((insertById e s).map Entry.id).Nodup := by
  induction s with
  | nil => simp [insertById]
  | cons x xs ih =>
      simp only [List.map_cons, List.nodup_cons] at hnd
      simp only [List.map_cons, List.mem_cons, not_or] at he
      unfold insertById
      split
      · simp only [List.map_cons, List.nodup_cons]
        refine ⟨?_, hnd.1, hnd.2⟩
        simp only [List.mem_cons]
        push_neg
        exact ⟨he.1, he.2⟩
      · simp only [List.map_cons, List.nodup_cons]
        constructor
        · intro hmem
          rcases (ids_insertById e xs x.id).mp hmem with h | h
          · exact he.1 h.symm
          · exact hnd.1 h
        · exact ih hnd.2 (by simpa using he.2)

theorem nodup_ids_upsert {e : Entry} {s : List Entry} (hnd : (s.map Entry.id).Nodup) :
    ((upsert e s).map Entry.id).Nodup := by
  unfold upsert
  split
  · rw [ids_map_replace]; exact hnd
  · rename_i hany
    refine nodup_ids_insertById hnd ?_
    intro hmem
    rcases List.mem_map.mp hmem with ⟨a, ha, hae⟩
    exact hany (List.any_eq_true.mpr ⟨a, ha, by simp [hae]⟩)

theorem ids_upsert_of_mem {e : Entry} {s : List Entry}
    (h : (s.any (fun x => x.id == e.id)) = true) :
    (upsert e s).map Entry.id = s.map Entry.id := by
  unfold upsert
  rw [if_pos h]
  exact ids_map_replace e s

theorem upsert_self {s : List Entry} {v : Entry} (hnd : (s.map Entry.id).Nodup)
    (hv : entryAt s v.id = some v) : upsert v s = s := by
  have hmem := (entryAt_mem hv).1
  unfold upsert
  rw [if_pos (List.any_eq_true.mpr ⟨v, hmem, by simp⟩)]
  conv_rhs => rw [← List.map_id s]
  apply List.map_congr_left
  intro x hx
  by_cases h : (x.id == v.id) = true
  · have h' : x.id = v.id := by simpa using h
    have := mem_entryAt hnd hx
    rw [h', hv] at this
    simp [h, Option.some_inj.mp this]
  · simp [h]

/-! ### `lookupTx` lemmas -/

theorem lookupTx_foldl_some {tx : String} {e : Entry} :
    ∀ (L : List Entry) (acc : Option Entry),
      L.foldl (fun acc x => if x.txid == some tx then some x else acc) acc = some e →
      (e ∈ L ∧ e.txid = some tx) ∨ acc = some e
  | [], acc, h => .inr h
  | x :: xs, acc, h => by
      rw [List.foldl_cons] at h
      rcases lookupTx_foldl_some xs _ h with h2 | h2
      · exact .inl ⟨List.mem_cons_of_mem _ h2.1, h2.2⟩
      · by_cases hx : (x.txid == some tx) = true
        · rw [if_pos hx] at h2
          have : x = e := Option.some_inj.mp h2
          subst this
          exact .inl ⟨List.mem_cons_self _ _, by simpa using hx⟩
        · rw [if_neg hx] at h2
          exact .inr h2

theorem lookupTx_some {l : List Entry} {tx : String} {e : Entry}
    (h : lookupTx l tx = some e) :
    e ∈ l ∧ e.txid = some tx ∧ truthyOpt e.txid = true := by
  unfold lookupTx at h
  rcases lookupTx_foldl_some _ _ h with h2 | h2
  · have hmem := List.mem_filter.mp h2.1
    exact ⟨hmem.1, h2.2, hmem.2⟩
  · cases h2

theorem lookupTx_foldl_isSome {tx : String} :
    ∀ (L : List Entry) (acc : Option Entry),
      (∃ x ∈ L, x.txid = some tx) ∨ acc.isSome = true →
      (L.foldl (fun acc x => if x.txid == some tx then some x else acc) acc).isSome = true
  | [], acc, h => by
      rcases h with ⟨x, hx, _⟩ | h2
      · cases hx
      · exact h2
  | x :: xs, acc, h => by
      rw [List.foldl_cons]
      rcases h with ⟨y, hy, hytx⟩ | h2
      · rcases List.mem_cons.mp hy with rfl | hmem
        · refine lookupTx_foldl_isSome xs _ (.inr ?_)
          rw [if_pos (by simp [hytx])]
          rfl
        · exact lookupTx_foldl_isSome xs _ (.inl ⟨y, hmem, hytx⟩)
      · refine lookupTx_foldl_isSome xs _ (.inr ?_)
        split
        · rfl
        · exact h2

theorem lookupTx_isSome_of_mem {l : List Entry} {e : Entry} {tx : String}
    (he : e ∈ l) (htx : e.txid = some tx) (hne : tx ≠ "") :
    (lookupTx l tx).isSome = true := by
  unfold lookupTx
  refine lookupTx_foldl_isSome _ _ (.inl ⟨e, ?_, htx⟩)
  refine List.mem_filter.mpr ⟨he, ?_⟩
  rw [htx]
  simpa [truthyOpt] using hne

theorem lookupTx_foldl_none {tx : String} :
    ∀ (L : List Entry), (∀ x ∈ L, (x.txid == some tx) = false) →
      ∀ acc, L.foldl (fun acc x => if x.txid == some tx then some x else acc) acc = acc
  | [], _, acc => rfl
  | x :: xs, h, acc => by
      rw [List.foldl_cons, if_neg (by simp [h x (List.mem_cons_self _ _)])]
      exact lookupTx_foldl_none xs (fun y hy => h y (List.mem_cons_of_mem _ hy)) acc

theorem lookupTx_empty (l : List Entry) : lookupTx l "" = none := by
  unfold lookupTx
  apply lookupTx_foldl_none
  intro x hx
  have htr := (List.mem_filter.mp hx).2
  simp only [beq_eq_false_iff_ne]
  intro hcon
  rw [hcon] at htr
  simp [truthyOpt] at htr

theorem lookupTx_none_of_no_mem {l : List Entry} {tx : String}
    (h : ∀ x ∈ l, x.txid ≠ some tx) : lookupTx l tx = none := by
  unfold lookupTx
  apply lookupTx_foldl_none
  intro x hx
  simp only [beq_eq_false_iff_ne]
  exact h x (List.mem_filter.mp hx).1

/-! ### Phase analysis of `applyRemote` -/

theorem cur_id_eq {s : List Entry} {e0 : Entry} : ((entryAt s e0.id).getD e0).id = e0.id := by
  cases h : entryAt s e0.id
  · simp
  · simpa using (entryAt_mem h).2

theorem entryAt_isSome_of_id_mem {s : List Entry} {j : String}
    (h : j ∈ s.map Entry.id) : (entryAt s j).isSome = true := by
  rcases List.mem_map.mp h with ⟨a, ha, rfl⟩
  rw [entryAt, List.find?_isSome]
  exact ⟨a, ha, by simp⟩

theorem mem_upsert_id {v a : Entry} {s : List Entry}
    (h : a ∈ upsert v s) (hid : a.id = v.id) : a = v := by
  unfold upsert at h
  split at h
  · rcases List.mem_map.mp h with ⟨x, _, hxe⟩
    by_cases hx : (x.id == v.id) = true
    · rw [if_pos hx] at hxe; exact hxe.symm
    · rw [if_neg hx] at hxe
      subst hxe
      exact absurd hid (by simpa using hx)
  · rename_i hany
    rcases mem_insertById h with rfl | hmem
    · rfl
    · exact absurd (List.any_eq_true.mpr ⟨a, hmem, by simp [hid]⟩) hany

/-- The three possible outcomes of one `applyRemote` first-loop step. -/
theorem phase1Step_eq (sha256Hex : String → String) (now : Nat) (tombRefs : List String)
    (localAll : List Entry) (acc : List Entry × List Entry) (r : RemoteEntry) :
    phase1Step sha256Hex now tombRefs localAll acc r = acc ∨
    (∃ e0, lookupTx localAll r.txid = some e0 ∧
      (((entryAt acc.1 e0.id).getD e0).pending || !((entryAt acc.1 e0.id).getD e0).seenRemote) = true ∧
      phase1Step sha256Hex now tombRefs localAll acc r
        = (putEntry sha256Hex (confirmSeen ((entryAt acc.1 e0.id).getD e0)) acc.1, acc.2)) ∨
    (tombRefs.contains r.txid = false ∧ lookupTx localAll r.txid = none ∧
      phase1Step sha256Hex now tombRefs localAll acc r
        = (acc.1, acc.2 ++ [ensureContentHash sha256Hex (newRemoteEntry now r)])) := by
  unfold phase1Step
  by_cases hc : tombRefs.contains r.txid = true
  · left; rw [if_pos hc]
  · rw [if_neg hc]
    cases hlk : lookupTx localAll r.txid with
    | none => right; right; exact ⟨by simpa using hc, rfl, rfl⟩
    | some e0 =>
        by_cases hg : (((entryAt acc.1 e0.id).getD e0).pending
            || !((entryAt acc.1 e0.id).getD e0).seenRemote) = true
        · right; left
          refine ⟨e0, rfl, hg, ?_⟩
          dsimp only
          rw [if_pos hg]
        · left
          dsimp only
          rw [if_neg hg]

/-- The value phase 2 writes: the current entry, tombstoned. -/
def tombstonedOf (now : Nat) (cur : Entry) : Entry :=
  { cur with status := "tombstoned", tombstonedAt := some now }

@[simp] theorem tombstonedOf_id (now : Nat) (cur : Entry) :
    (tombstonedOf now cur).id = cur.id := rfl

@[simp] theorem tombstonedOf_txid (now : Nat) (cur : Entry) :
    (tombstonedOf now cur).txid = cur.txid := rfl

@[simp] theorem tombstonedOf_status (now : Nat) (cur : Entry) :
    (tombstonedOf now cur).status = "tombstoned" := rfl

@[simp] theorem tombstonedOf_pending (now : Nat) (cur : Entry) :
    (tombstonedOf now cur).pending = cur.pending := rfl

@[simp] theorem tombstonedOf_seenRemote (now : Nat) (cur : Entry) :
    (tombstonedOf now cur).seenRemote = cur.seenRemote := rfl

@[simp] theorem tombstonedOf_createdAt (now : Nat) (cur : Entry) :
    (tombstonedOf now cur).createdAt = cur.createdAt := rfl

/-- The two possible outcomes of one `applyRemote` second-loop step. -/
theorem phase2Step_eq (sha256Hex : String → String) (now : Nat) (tombRefs : List String)
    (s : List Entry) (e : Entry) :
    phase2Step sha256Hex now tombRefs s e = s ∨
    ((truthyOpt ((entryAt s e.id).getD e).txid
        && tombRefs.contains (((entryAt s e.id).getD e).txid.getD "")
        && !(((entryAt s e.id).getD e).status == "tombstoned")) = true ∧
      phase2Step sha256Hex now tombRefs s e
        = putEntry sha256Hex (tombstonedOf now ((entryAt s e.id).getD e)) s) := by
  unfold phase2Step
  by_cases hg : (truthyOpt ((entryAt s e.id).getD e).txid
      && tombRefs.contains (((entryAt s e.id).getD e).txid.getD "")
      && !(((entryAt s e.id).getD e).status == "tombstoned")) = true
  · right
    refine ⟨hg, ?_⟩
    rw [if_pos hg]
    rfl
  · left; rw [if_neg hg]

/-- Phase 1 leaves the set (and order) of primary keys unchanged,
provided the store carries the keys of the `localAll` snapshot. -/
theorem phase1_ids (sha256Hex : String → String) (now : Nat) (tombRefs : List String)
    (localAll : List Entry) :
    ∀ (rl : List RemoteEntry) (s t : List Entry),
      s.map Entry.id = localAll.map Entry.id →
      ((rl.foldl (phase1Step sha256Hex now tombRefs localAll) (s, t)).1).map Entry.id
        = localAll.map Entry.id
  | [], s, t, hids => hids
  | r :: rl, s, t, hids => by
      rw [List.foldl_cons]
      rcases phase1Step_eq sha256Hex now tombRefs localAll (s, t) r with heq | ⟨e0, hlk, _, heq⟩ | ⟨_, _, heq⟩
      · rw [heq]; exact phase1_ids sha256Hex now tombRefs localAll rl s t hids
      · rw [heq]
        have he0 : e0.id ∈ s.map Entry.id := by
          rw [hids]
          exact List.mem_map_of_mem Entry.id (lookupTx_some hlk).1
        have hput : (putEntry sha256Hex (confirmSeen ((entryAt s e0.id).getD e0)) s).map Entry.id
            = s.map Entry.id := by
          unfold putEntry
          apply ids_upsert_of_mem
          rw [List.any_eq_true]
          rcases List.mem_map.mp he0 with ⟨a, ha, hae⟩
          exact ⟨a, ha, by simp [hae, cur_id_eq]⟩
        refine Eq.trans ?_ (hids)
        have := phase1_ids sha256Hex now tombRefs localAll rl
          (putEntry sha256Hex (confirmSeen ((entryAt s e0.id).getD e0)) s) t
          (by rw [hput, hids])
        rw [this, hids]
      · rw [heq]; exact phase1_ids sha256Hex now tombRefs localAll rl s (t ++ [_]) hids

/-- Membership-style invariant of phase 1: a property holding of every
store entry and every snapshot entry, and preserved by the
confirm-and-ensure write, holds of every entry after the loop. -/
theorem phase1_all (sha256Hex : String → String) (now : Nat) (tombRefs : List String)
    (localAll : List Entry) (P : Entry → Prop)
    (hpres : ∀ cur, P cur → P (ensureContentHash sha256Hex (confirmSeen cur)))
    (hloc : ∀ e0 ∈ localAll, P e0) :
    ∀ (rl : List RemoteEntry) (s t : List Entry),
      (∀ a ∈ s, P a) →
      ∀ a ∈ (rl.foldl (phase1Step sha256Hex now tombRefs localAll) (s, t)).1, P a
  | [], s, t, hs, a, ha => hs a ha
  | r :: rl, s, t, hs, a, ha => by
      rw [List.foldl_cons] at ha
      rcases phase1Step_eq sha256Hex now tombRefs localAll (s, t) r with heq | ⟨e0, hlk, _, heq⟩ | ⟨_, _, heq⟩
      · rw [heq] at ha
        exact phase1_all sha256Hex now tombRefs localAll P hpres hloc rl s t hs a ha
      · rw [heq] at ha
        refine phase1_all sha256Hex now tombRefs localAll P hpres hloc rl _ t ?_ a ha
        intro b hb
        rcases mem_upsert hb with rfl | hbs
        · refine hpres _ ?_
          cases hcur : entryAt s e0.id with
          | none => simpa [hcur] using hloc e0 (lookupTx_some hlk).1
          | some c => simpa [hcur] using hs c (entryAt_mem hcur).1
        · exact hs b hbs
      · rw [heq] at ha
        exact phase1_all sha256Hex now tombRefs localAll P hpres hloc rl s _ hs a ha

/-- An entry already confirmed-and-seen is never touched again by
phase 1. -/
theorem phase1_stable (sha256Hex : String → String) (now : Nat) (tombRefs : List String)
    (localAll : List Entry) :
    ∀ (rl : List RemoteEntry) (s t : List Entry) {i : String} {a : Entry},
      entryAt s i = some a → a.pending = false → a.seenRemote = true →
      entryAt ((rl.foldl (phase1Step sha256Hex now tombRefs localAll) (s, t)).1) i = some a
  | [], s, t, i, a, hat, hp, hsn => hat
  | r :: rl, s, t, i, a, hat, hp, hsn => by
      rw [List.foldl_cons]
      rcases phase1Step_eq sha256Hex now tombRefs localAll (s, t) r with heq | ⟨e0, hlk, hg, heq⟩ | ⟨_, _, heq⟩
      · rw [heq]
        exact phase1_stable sha256Hex now tombRefs localAll rl s t hat hp hsn
      · rw [heq]
        by_cases hei : e0.id = i
        · subst hei
          rw [hat] at hg
          simp [hp, hsn] at hg
        · refine phase1_stable sha256Hex now tombRefs localAll rl _ t ?_ hp hsn
          unfold putEntry
          rw [entryAt_upsert]
          rw [if_neg (by simp [cur_id_eq]; exact fun h => hei h.symm)]
          exact hat
      · rw [heq]
        exact phase1_stable sha256Hex now tombRefs localAll rl s _ hat hp hsn

/-- What one remote row contributes to the `toAdd` buffer. -/
def phase1AddFn (sha256Hex : String → String) (now : Nat) (tombRefs : List String)
    (localAll : List Entry) (r : RemoteEntry) : Option Entry :=
  if tombRefs.contains r.txid then none
  else
    match lookupTx localAll r.txid with
    | some _ => none
    | none => some (ensureContentHash sha256Hex (newRemoteEntry now r))

/-- `phase1Step` on a tombstoned remote row: no effect. -/
theorem phase1Step_contains {sha256Hex : String → String} {now : Nat} {tombRefs : List String}
    {localAll : List Entry} {acc : List Entry × List Entry} {r : RemoteEntry}
    (hc : tombRefs.contains r.txid = true) :
    phase1Step sha256Hex now tombRefs localAll acc r = acc := by
  unfold phase1Step
  rw [if_pos hc]

/-- `phase1Step` on a remote row with no matching local entry: queue it. -/
theorem phase1Step_miss {sha256Hex : String → String} {now : Nat} {tombRefs : List String}
    {localAll : List Entry} {acc : List Entry × List Entry} {r : RemoteEntry}
    (hc : tombRefs.contains r.txid = false) (hlk : lookupTx localAll r.txid = none) :
    phase1Step sha256Hex now tombRefs localAll acc r
      = (acc.1, acc.2 ++ [ensureContentHash sha256Hex (newRemoteEntry now r)]) := by
  unfold phase1Step
  rw [if_neg (by rw [hc]; simp), hlk]

/-- `phase1Step` on a remote row with a matching local entry. -/
theorem phase1Step_hit {sha256Hex : String → String} {now : Nat} {tombRefs : List String}
    {localAll : List Entry} {acc : List Entry × List Entry} {r : RemoteEntry} {e0 : Entry}
    (hc : tombRefs.contains r.txid = false) (hlk : lookupTx localAll r.txid = some e0) :
    phase1Step sha256Hex now tombRefs localAll acc r
      = (if (((entryAt acc.1 e0.id).getD e0).pending
            || !((entryAt acc.1 e0.id).getD e0).seenRemote) = true
         then (putEntry sha256Hex (confirmSeen ((entryAt acc.1 e0.id).getD e0)) acc.1, acc.2)
         else acc) := by
  unfold phase1Step
  rw [if_neg (by rw [hc]; simp), hlk]

/-- The `toAdd` buffer after phase 1 depends only on the remote list
and the initial snapshot. -/
theorem phase1_toAdd (sha256Hex : String → String) (now : Nat) (tombRefs : List String)
    (localAll : List Entry) :
    ∀ (rl : List RemoteEntry) (s t : List Entry),
      (rl.foldl (phase1Step sha256Hex now tombRefs localAll) (s, t)).2
        = t ++ rl.filterMap (phase1AddFn sha256Hex now tombRefs localAll)
  | [], s, t => by simp
  | r :: rl, s, t => by
      rw [List.foldl_cons, List.filterMap_cons]
      unfold phase1AddFn
      by_cases hc : tombRefs.contains r.txid = true
      · rw [phase1Step_contains hc, if_pos hc]
        exact phase1_toAdd sha256Hex now tombRefs localAll rl s t
      · rw [if_neg hc]
        have hc' : tombRefs.contains r.txid = false := by simpa using hc
        cases hlk : lookupTx localAll r.txid with
        | none =>
            rw [phase1Step_miss hc' hlk]
            dsimp only
            rw [phase1_toAdd sha256Hex now tombRefs localAll rl s _, List.append_assoc]
            rfl
        | some e0 =>
            rw [phase1Step_hit hc' hlk]
            dsimp only
            split
            · exact phase1_toAdd sha256Hex now tombRefs localAll rl _ t
            · exact phase1_toAdd sha256Hex now tombRefs localAll rl s t

/-- Per-key projection invariance of phase 1, for any projection
untouched by the confirm-and-ensure write (e.g. `txid`). -/
theorem phase1_entry_proj {β : Type} (f : Entry → β)
    (sha256Hex : String → String) (now : Nat) (tombRefs : List String)
    (localAll : List Entry)
    (hf : ∀ cur, f (ensureContentHash sha256Hex (confirmSeen cur)) = f cur) :
    ∀ (rl : List RemoteEntry) (s t : List Entry) (i : String),
      s.map Entry.id = localAll.map Entry.id →
      (entryAt ((rl.foldl (phase1Step sha256Hex now tombRefs localAll) (s, t)).1) i).map f
        = (entryAt s i).map f
  | [], s, t, i, hids => rfl
  | r :: rl, s, t, i, hids => by
      rw [List.foldl_cons]
      rcases phase1Step_eq sha256Hex now tombRefs localAll (s, t) r with heq | ⟨e0, hlk, _, heq⟩ | ⟨_, _, heq⟩
      · rw [heq]
        exact phase1_entry_proj f sha256Hex now tombRefs localAll hf rl s t i hids
      · rw [heq]
        have he0 : e0.id ∈ s.map Entry.id := by
          rw [hids]
          exact List.mem_map_of_mem Entry.id (lookupTx_some hlk).1
        have hcurid : ((entryAt s e0.id).getD e0).id = e0.id := cur_id_eq
        have hput : (putEntry sha256Hex (confirmSeen ((entryAt s e0.id).getD e0)) s).map Entry.id
            = s.map Entry.id := by
          unfold putEntry
          apply ids_upsert_of_mem
          rw [List.any_eq_true]
          rcases List.mem_map.mp he0 with ⟨a, ha, hae⟩
          exact ⟨a, ha, by simp [hae, hcurid]⟩
        rw [phase1_entry_proj f sha256Hex now tombRefs localAll hf rl _ t i (by rw [hput, hids])]
        unfold putEntry
        rw [entryAt_upsert]
        by_cases hi : i = e0.id
        · subst hi
          rw [if_pos (by simp [hcurid])]
          obtain ⟨c, hc⟩ := Option.isSome_iff_exists.mp (entryAt_isSome_of_id_mem he0)
          rw [hc]
          simp [hf]
        · rw [if_neg (by simp [hcurid]; exact hi)]
      · rw [heq]
        exact phase1_entry_proj f sha256Hex now tombRefs localAll hf rl s _ i hids

/-- Per-key projection invariance of phase 2, for any projection
untouched by the tombstoning write (e.g. `txid`, `pending`,
`seenRemote`). -/
theorem phase2_entry_proj {β : Type} (f : Entry → β)
    (sha256Hex : String → String) (now : Nat) (tombRefs : List String)
    (hf : ∀ cur, f (ensureContentHash sha256Hex (tombstonedOf now cur)) = f cur) :
    ∀ (L : List Entry) (s : List Entry) (i : String),
      (∀ e ∈ L, e.id ∈ s.map Entry.id) →
      (entryAt (L.foldl (phase2Step sha256Hex now tombRefs) s) i).map f
        = (entryAt s i).map f
  | [], s, i, hL => rfl
  | e :: L, s, i, hL => by
      rw [List.foldl_cons]
      rcases phase2Step_eq sha256Hex now tombRefs s e with heq | ⟨_, heq⟩
      · rw [heq]
        exact phase2_entry_proj f sha256Hex now tombRefs hf L s i
          (fun x hx => hL x (List.mem_cons_of_mem _ hx))
      · rw [heq]
        have he : e.id ∈ s.map Entry.id := hL e (List.mem_cons_self _ _)
        have hcurid : ((entryAt s e.id).getD e).id = e.id := cur_id_eq
        have hput : (putEntry sha256Hex (tombstonedOf now ((entryAt s e.id).getD e)) s).map
              Entry.id = s.map Entry.id := by
          unfold putEntry
          apply ids_upsert_of_mem
          rw [List.any_eq_true]
          rcases List.mem_map.mp he with ⟨a, ha, hae⟩
          exact ⟨a, ha, by simp [hae, hcurid]⟩
        have hL' : ∀ x ∈ L, x.id ∈ (putEntry sha256Hex (tombstonedOf now ((entryAt s e.id).getD e)) s).map Entry.id := by
          rw [hput]
          exact fun x hx => hL x (List.mem_cons_of_mem _ hx)
        rw [phase2_entry_proj f sha256Hex now tombRefs hf L _ i hL']
        unfold putEntry
        rw [entryAt_upsert]
        by_cases hi : i = e.id
        · subst hi
          rw [if_pos (by simp [hcurid])]
          obtain ⟨c, hc⟩ := Option.isSome_iff_exists.mp (entryAt_isSome_of_id_mem he)
          rw [hc]
          simp [hf]
        · rw [if_neg (by simp [hcurid]; exact hi)]

/-- Phase 2 preserves the key list, provided it only visits keys the
store carries. -/
theorem phase2_ids (sha256Hex : String → String) (now : Nat) (tombRefs : List String) :
    ∀ (L : List Entry) (s : List Entry),
      (∀ e ∈ L, e.id ∈ s.map Entry.id) →
      (L.foldl (phase2Step sha256Hex now tombRefs) s).map Entry.id = s.map Entry.id
  | [], s, hL => rfl
  | e :: L, s, hL => by
      rw [List.foldl_cons]
      rcases phase2Step_eq sha256Hex now tombRefs s e with heq | ⟨_, heq⟩
      · rw [heq]
        exact phase2_ids sha256Hex now tombRefs L s (fun x hx => hL x (List.mem_cons_of_mem _ hx))
      · rw [heq]
        have he : e.id ∈ s.map Entry.id := hL e (List.mem_cons_self _ _)
        have hput : (putEntry sha256Hex (tombstonedOf now ((entryAt s e.id).getD e)) s).map
              Entry.id = s.map Entry.id := by
          unfold putEntry
          apply ids_upsert_of_mem
          rw [List.any_eq_true]
          rcases List.mem_map.mp he with ⟨a, ha, hae⟩
          exact ⟨a, ha, by simp [hae, cur_id_eq]⟩
        have hL' : ∀ x ∈ L, x.id ∈ (putEntry sha256Hex (tombstonedOf now ((entryAt s e.id).getD e)) s).map Entry.id := by
          rw [hput]
          exact fun x hx => hL x (List.mem_cons_of_mem _ hx)
        rw [phase2_ids sha256Hex now tombRefs L _ hL', hput]

/-- Membership-style invariant of phase 2. -/
theorem phase2_all (sha256Hex : String → String) (now : Nat) (tombRefs : List String)
    (P : Entry → Prop)
    (hpres : ∀ cur, P cur → P (ensureContentHash sha256Hex (tombstonedOf now cur))) :
    ∀ (L : List Entry) (s : List Entry),
      (∀ a ∈ s, P a) → (∀ e ∈ L, P e) →
      ∀ a ∈ L.foldl (phase2Step sha256Hex now tombRefs) s, P a
  | [], s, hs, _, a, ha => hs a ha
  | e :: L, s, hs, hL, a, ha => by
      rw [List.foldl_cons] at ha
      rcases phase2Step_eq sha256Hex now tombRefs s e with heq | ⟨_, heq⟩
      · rw [heq] at ha
        exact phase2_all sha256Hex now tombRefs P hpres L s hs
          (fun x hx => hL x (List.mem_cons_of_mem _ hx)) a ha
      · rw [heq] at ha
        refine phase2_all sha256Hex now tombRefs P hpres L _ ?_
          (fun x hx => hL x (List.mem_cons_of_mem _ hx)) a ha
        intro b hb
        rcases mem_upsert hb with rfl | hbs
        · refine hpres _ ?_
          cases hcur : entryAt s e.id with
          | none => simpa [hcur] using hL e (List.mem_cons_self _ _)
          | some c => simpa [hcur] using hs c (entryAt_mem hcur).1
        · exact hs b hbs

theorem entryAt_eq_none {s : List Entry} {i : String} (h : i ∉ s.map Entry.id) :
    entryAt s i = none := by
  rw [entryAt, List.find?_eq_none]
  intro x hx
  simp only [beq_iff_eq]
  intro hxi
  exact h (hxi ▸ List.mem_map_of_mem Entry.id hx)

theorem contains_of_mem {l : List String} {x : String} (h : x ∈ l) : l.contains x = true := by
  induction l with
  | nil => cases h
  | cons y ys ih =>
      rcases List.mem_cons.mp h with rfl | h2
      · simp [List.contains]
      · simp [List.contains]
        right
        simpa [List.contains] using ih h2

/-- After phase 2, every store entry whose `txid` equals a tombstoned
reference is tombstoned — provided the loop visits every key the store
carries (or the entry was already settled). -/
theorem phase2_tombstones (sha256Hex : String → String) (now : Nat) (tombRefs : List String)
    {ref : String} (href : ref ∈ tombRefs) (hrefne : ¬(ref = "")) :
    ∀ (L : List Entry) (s : List Entry),
      (s.map Entry.id).Nodup →
      (∀ a ∈ s, a.id ∈ L.map Entry.id ∨ (a.txid = some ref → a.status = "tombstoned")) →
      ∀ a ∈ L.foldl (phase2Step sha256Hex now tombRefs) s,
        a.txid = some ref → a.status = "tombstoned"
  | [], s, hnd, hpre, a, ha, htx => by
      rcases hpre a ha with h | h
      · simp at h
      · exact h htx
  | e :: L, s, hnd, hpre, a, ha, htx => by
      rw [List.foldl_cons] at ha
      by_cases hg : (truthyOpt ((entryAt s e.id).getD e).txid
          && tombRefs.contains (((entryAt s e.id).getD e).txid.getD "")
          && !(((entryAt s e.id).getD e).status == "tombstoned")) = true
      · have heq : phase2Step sha256Hex now tombRefs s e
            = putEntry sha256Hex (tombstonedOf now ((entryAt s e.id).getD e)) s := by
          unfold phase2Step
          rw [if_pos hg]
          rfl
        rw [heq] at ha
        have hnd' : ((putEntry sha256Hex (tombstonedOf now ((entryAt s e.id).getD e)) s).map
            Entry.id).Nodup := nodup_ids_upsert hnd
        refine phase2_tombstones sha256Hex now tombRefs href hrefne L _ hnd' ?_ a ha htx
        intro b hb
        have hvid : (ensureContentHash sha256Hex
            (tombstonedOf now ((entryAt s e.id).getD e))).id = e.id := by
          simp [cur_id_eq]
        rcases mem_upsert hb with rfl | hbs
        · right
          intro _
          simp
        · rcases hpre b hbs with hid | hprop
          · rcases (by simpa using hid : b.id = e.id ∨ ∃ c ∈ L, c.id = b.id) with hbe | ⟨c, hc, hcid⟩
            · right
              intro _
              have : b = ensureContentHash sha256Hex
                  (tombstonedOf now ((entryAt s e.id).getD e)) :=
                mem_upsert_id hb (by rw [hbe, hvid])
              rw [this]
              simp
            · left
              exact List.mem_map.mpr ⟨c, hc, hcid⟩
          · exact .inr hprop
      · have heq : phase2Step sha256Hex now tombRefs s e = s := by
          unfold phase2Step
          rw [if_neg hg]
        rw [heq] at ha
        refine phase2_tombstones sha256Hex now tombRefs href hrefne L s hnd ?_ a ha htx
        intro b hb
        rcases hpre b hb with hid | hprop
        · rcases (by simpa using hid : b.id = e.id ∨ ∃ c ∈ L, c.id = b.id) with hbe | ⟨c, hc, hcid⟩
          · right
            intro hbtx
            have hab : entryAt s e.id = some b := by
              rw [← hbe]
              exact mem_entryAt hnd hb
            by_contra hbs
            apply hg
            rw [hab]
            simp only [Option.getD_some]
            rw [hbtx]
            simp [truthyOpt, hrefne, hbs, href]
          · left
            exact List.mem_map.mpr ⟨c, hc, hcid⟩
        · exact .inr hprop

/-! ### `bulkPut` lemmas and store extensionality -/

theorem mem_bulkPut (sha256Hex : String → String) :
    ∀ (toAdd : List Entry) (s : List Entry) (a : Entry),
      a ∈ bulkPut sha256Hex toAdd s →
      (∃ x ∈ toAdd, a = ensureContentHash sha256Hex x) ∨ a ∈ s
  | [], s, a, ha => .inr ha
  | x :: xs, s, a, ha => by
      rw [bulkPut, List.foldl_cons] at ha
      rcases mem_bulkPut sha256Hex xs _ a ha with ⟨y, hy, hay⟩ | h2
      · exact .inl ⟨y, List.mem_cons_of_mem _ hy, hay⟩
      · rcases mem_upsert h2 with rfl | h3
        · exact .inl ⟨x, List.mem_cons_self _ _, rfl⟩
        · exact .inr h3

theorem bulkPut_nodup (sha256Hex : String → String) :
    ∀ (toAdd : List Entry) (s : List Entry), (s.map Entry.id).Nodup →
      ((bulkPut sha256Hex toAdd s).map Entry.id).Nodup
  | [], s, hnd => hnd
  | x :: xs, s, hnd => by
      rw [bulkPut, List.foldl_cons]
      exact bulkPut_nodup sha256Hex xs _ (nodup_ids_upsert hnd)

theorem bulkPut_entryAt (sha256Hex : String → String) :
    ∀ (toAdd : List Entry) (s : List Entry) (i : String),
      entryAt (bulkPut sha256Hex toAdd s) i
        = match (toAdd.filter (fun x => x.id == i)).getLast? with
          | some x => some (ensureContentHash sha256Hex x)
          | none => entryAt s i := by
  intro toAdd
  induction toAdd using List.reverseRecOn with
  | nil => intro s i; rfl
  | append_singleton xs x ih =>
      intro s i
      rw [bulkPut, List.foldl_append, List.foldl_cons, List.foldl_nil, List.filter_append]
      rw [show (List.foldl (fun st e => upsert (ensureContentHash sha256Hex e) st) s xs)
          = bulkPut sha256Hex xs s from rfl]
      by_cases hx : (x.id == i) = true
      · have hfil : List.filter (fun y => y.id == i) [x] = [x] := by
          simp [List.filter, hx]
        rw [hfil, List.getLast?_concat]
        rw [entryAt_upsert]
        rw [if_pos (by simpa using (beq_iff_eq.mp hx).symm)]
      · have hx' : (x.id == i) = false := by simpa using hx
        have hfil : List.filter (fun y => y.id == i) [x] = [] := by
          simp [List.filter, hx']
        rw [hfil, List.append_nil]
        rw [entryAt_upsert]
        rw [if_neg (by simp; exact fun h => absurd h.symm (by simpa using hx))]
        exact ih s i

theorem bulkPut_ids (sha256Hex : String → String) :
    ∀ (toAdd : List Entry) (s : List Entry),
      (∀ x ∈ toAdd, x.id ∈ s.map Entry.id) →
      (bulkPut sha256Hex toAdd s).map Entry.id = s.map Entry.id
  | [], s, _ => rfl
  | x :: xs, s, hx => by
      rw [bulkPut, List.foldl_cons]
      have hid : (upsert (ensureContentHash sha256Hex x) s).map Entry.id = s.map Entry.id := by
        apply ids_upsert_of_mem
        rw [List.any_eq_true]
        rcases List.mem_map.mp (hx x (List.mem_cons_self _ _)) with ⟨a, ha, hae⟩
        exact ⟨a, ha, by simp [hae]⟩
      have := bulkPut_ids sha256Hex xs (upsert (ensureContentHash sha256Hex x) s)
        (fun y hy => by rw [hid]; exact hx y (List.mem_cons_of_mem _ hy))
      rw [show (List.foldl (fun st e => upsert (ensureContentHash sha256Hex e) st)
          (upsert (ensureContentHash sha256Hex x) s) xs)
          = bulkPut sha256Hex xs (upsert (ensureContentHash sha256Hex x) s) from rfl]
      rw [this, hid]

/-- Two well-formed stores with the same key sequence and the same
record at every key are equal. -/
theorem store_ext : ∀ {s1 s2 : List Entry},
    s1.map Entry.id = s2.map Entry.id →
    (s1.map Entry.id).Nodup →
    (∀ i, entryAt s1 i = entryAt s2 i) → s1 = s2
  | [], s2, hids, _, _ => by
      have : s2.map Entry.id = [] := hids.symm
      cases s2 with
      | nil => rfl
      | cons y ys => simp at this
  | x :: xs, s2, hids, hnd, hat => by
      cases s2 with
      | nil => simp at hids
      | cons y ys =>
          simp only [List.map_cons, List.cons.injEq] at hids
          simp only [List.map_cons, List.nodup_cons] at hnd
          have hxy : x = y := by
            have h1 := hat x.id
            unfold entryAt at h1
            rw [List.find?_cons_of_pos _ (by simp), List.find?_cons_of_pos _ (by simp [hids.1])]
              at h1
            exact Option.some_inj.mp h1
          refine List.cons_eq_cons.mpr ⟨hxy, ?_⟩
          refine store_ext hids.2 hnd.2 ?_
          intro i
          by_cases hi : i = x.id
          · subst hi
            rw [entryAt_eq_none hnd.1, entryAt_eq_none (by rw [← hids.2]; exact hnd.1)]
          · have h2 := hat i
            unfold entryAt at h2 ⊢
            rw [List.find?_cons_of_neg _ (by simpa using fun h => hi h.symm),
                List.find?_cons_of_neg _
                  (by simp only [beq_iff_eq]; rw [← hids.1]; exact fun h => hi h.symm)] at h2
            exact h2

/-! ### Tombstone precedence -/

theorem applyRemoteStore_eq (sha256Hex : String → String) (now : Nat)
    (rl : List RemoteEntry) (tb : List Tombstone) (s0 : List Entry) :
    applyRemoteStore sha256Hex now rl tb s0
      = bulkPut sha256Hex ((rl.foldl (phase1Step sha256Hex now (tombRefsOf tb) s0) (s0, [])).2)
          (s0.foldl (phase2Step sha256Hex now (tombRefsOf tb))
            ((rl.foldl (phase1Step sha256Hex now (tombRefsOf tb) s0) (s0, [])).1)) := rfl

theorem mem_toAdd_spec {sha256Hex : String → String} {now : Nat} {tombRefs : List String}
    {localAll : List Entry} {rl : List RemoteEntry} {x : Entry}
    (hx : x ∈ rl.filterMap (phase1AddFn sha256Hex now tombRefs localAll)) :
    ∃ r ∈ rl, x = ensureContentHash sha256Hex (newRemoteEntry now r) ∧
      tombRefs.contains r.txid = false ∧ lookupTx localAll r.txid = none := by
  rcases List.mem_filterMap.mp hx with ⟨r, hr, hfn⟩
  refine ⟨r, hr, ?_⟩
  unfold phase1AddFn at hfn
  by_cases hc : tombRefs.contains r.txid = true
  · rw [if_pos hc] at hfn; cases hfn
  · rw [if_neg hc] at hfn
    cases hlk : lookupTx localAll r.txid with
    | some e0 => rw [hlk] at hfn; cases hfn
    | none =>
        rw [hlk] at hfn
        exact ⟨(Option.some_inj.mp hfn).symm, by simpa using hc, rfl⟩

/-- Core fact behind C2: after `applyRemote`, every entry whose `txid`
is a (non-empty) tombstoned reference has status `tombstoned`. -/
theorem applyRemoteStore_tombstone_ref (sha256Hex : String → String) (now : Nat)
    (rl : List RemoteEntry) (tb : List Tombstone) (s0 : List Entry) (ref : String)
    (hnd : (s0.map Entry.id).Nodup)
    (href : ref ∈ tombRefsOf tb) (hrefne : ¬(ref = "")) :
    ∀ a ∈ applyRemoteStore sha256Hex now rl tb s0,
      a.txid = some ref → a.status = "tombstoned" := by
  intro a ha htx
  rw [applyRemoteStore_eq] at ha
  have hids1 : ((rl.foldl (phase1Step sha256Hex now (tombRefsOf tb) s0) (s0, [])).1).map Entry.id
      = s0.map Entry.id := phase1_ids sha256Hex now (tombRefsOf tb) s0 rl s0 [] rfl
  have hnd1 : (((rl.foldl (phase1Step sha256Hex now (tombRefsOf tb) s0) (s0, [])).1).map
      Entry.id).Nodup := by rw [hids1]; exact hnd
  rcases mem_bulkPut sha256Hex _ _ a ha with ⟨x, hxmem, hax⟩ | h2
  · rw [phase1_toAdd, List.nil_append] at hxmem
    rcases mem_toAdd_spec hxmem with ⟨r, _, hxr, hcont, _⟩
    exfalso
    subst hax
    rw [hxr] at htx
    simp only [ensureContentHash_txid] at htx
    have : r.txid = ref := by
      have := htx
      simp [newRemoteEntry] at this
      exact this
    rw [this] at hcont
    rw [contains_of_mem href] at hcont
    cases hcont
  · refine phase2_tombstones sha256Hex now (tombRefsOf tb) href hrefne s0 _ hnd1 ?_ a h2 htx
    intro b hb
    left
    rw [← hids1]
    exact List.mem_map_of_mem Entry.id hb

/-- C2. Tombstone precedence in reconciliation: a reference listed both
as a live remote row and as a remote tombstone ends up `tombstoned`,
never `confirmed`, and is absent from the returned active set. The
store is well formed (distinct primary keys, as IndexedDB enforces),
and the reference is a real (non-empty) reference, as `applyRemote`'s
`filter(Boolean)` treats falsy refs as absent. -/
theorem claim_C2_tombstone_precedence (sha256Hex : String → String) (now : Nat)
    (remoteList : List RemoteEntry) (tombstones : List Tombstone) (s0 : List Entry)
    (ref : String)
    (hnd : (s0.map Entry.id).Nodup)
    (hrefne : ref ≠ "")
    (hremote : ∃ r ∈ remoteList, r.txid = ref)
    (htomb : ∃ t ∈ tombstones, t.ref = some ref) :
    (∀ a ∈ applyRemoteStore sha256Hex now remoteList tombstones s0,
        a.txid = some ref → a.status = "tombstoned" ∧ a.status ≠ "confirmed") ∧
    (∀ a ∈ applyRemote sha256Hex now remoteList tombstones s0, a.txid ≠ some ref) := by
  have href : ref ∈ tombRefsOf tombstones := by
    rcases htomb with ⟨t, ht, htr⟩
    unfold tombRefsOf
    refine List.mem_filter.mpr ⟨List.mem_filterMap.mpr ⟨t, ht, htr⟩, by simpa using hrefne⟩
  have hmain := applyRemoteStore_tombstone_ref sha256Hex now remoteList tombstones s0 ref
    hnd href hrefne
  constructor
  · intro a ha htx
    have hts := hmain a ha htx
    refine ⟨hts, ?_⟩
    rw [hts]
    decide
  · intro a ha htx
    unfold applyRemote getAllActive at ha
    have hmem := List.mem_filter.mp ha
    have hts := hmain a hmem.1 htx
    rw [hts] at hmem
    simpa using hmem.2

/-! ### Tombstoned entries are not resurrected -/

/-- Phase 1 never changes the status of a non-pending tombstoned
record: confirming requires the `pending` flag. -/
theorem phase1_tomb_stable (sha256Hex : String → String) (now : Nat) (tombRefs : List String)
    (localAll : List Entry) :
    ∀ (rl : List RemoteEntry) (s t : List Entry) {i : String} {a : Entry},
      entryAt s i = some a → a.pending = false → a.status = "tombstoned" →
      ∃ a', entryAt ((rl.foldl (phase1Step sha256Hex now tombRefs localAll) (s, t)).1) i = some a' ∧
        a'.pending = false ∧ a'.status = "tombstoned"
  | [], s, t, i, a, hat, hp, hts => ⟨a, hat, hp, hts⟩
  | r :: rl, s, t, i, a, hat, hp, hts => by
      rw [List.foldl_cons]
      rcases phase1Step_eq sha256Hex now tombRefs localAll (s, t) r with heq | ⟨e0, hlk, hg, heq⟩ | ⟨_, _, heq⟩
      · rw [heq]
        exact phase1_tomb_stable sha256Hex now tombRefs localAll rl s t hat hp hts
      · rw [heq]
        by_cases hei : e0.id = i
        · subst hei
          have hcur : (entryAt s e0.id).getD e0 = a := by rw [hat]; rfl
          have hat2 : entryAt (putEntry sha256Hex (confirmSeen ((entryAt s e0.id).getD e0)) s)
              e0.id = some (ensureContentHash sha256Hex (confirmSeen a)) := by
            unfold putEntry
            rw [hcur, entryAt_upsert]
            rw [if_pos (by simp; exact ((entryAt_mem hat).2).symm)]
          have hts2 : (ensureContentHash sha256Hex (confirmSeen a)).status = "tombstoned" := by
            simp only [ensureContentHash_status, confirmSeen_status, hp]
            simpa using hts
          exact phase1_tomb_stable sha256Hex now tombRefs localAll rl _ t hat2 (by simp) hts2
        · refine phase1_tomb_stable sha256Hex now tombRefs localAll rl _ t ?_ hp hts
          unfold putEntry
          rw [entryAt_upsert]
          rw [if_neg (by simp [cur_id_eq]; exact fun h => hei h.symm)]
          exact hat
      · rw [heq]
        exact phase1_tomb_stable sha256Hex now tombRefs localAll rl s _ hat hp hts

/-- Phase 2 never un-tombstones: it only writes tombstoned records, and
skips records that are already tombstoned. -/
theorem phase2_tomb_stable (sha256Hex : String → String) (now : Nat) (tombRefs : List String) :
    ∀ (L : List Entry) (s : List Entry) {i : String} {a : Entry},
      entryAt s i = some a → a.pending = false → a.status = "tombstoned" →
      ∃ a', entryAt (L.foldl (phase2Step sha256Hex now tombRefs) s) i = some a' ∧
        a'.pending = false ∧ a'.status = "tombstoned"
  | [], s, i, a, hat, hp, hts => ⟨a, hat, hp, hts⟩
  | e :: L, s, i, a, hat, hp, hts => by
      rw [List.foldl_cons]
      rcases phase2Step_eq sha256Hex now tombRefs s e with heq | ⟨hg, heq⟩
      · rw [heq]
        exact phase2_tomb_stable sha256Hex now tombRefs L s hat hp hts
      · rw [heq]
        by_cases hei : e.id = i
        · subst hei
          have hcur : (entryAt s e.id).getD e = a := by rw [hat]; rfl
          rw [hcur] at hg
          rw [hts] at hg
          simp at hg
        · refine phase2_tomb_stable sha256Hex now tombRefs L _ ?_ hp hts
          unfold putEntry
          rw [entryAt_upsert]
          rw [if_neg (by simp [cur_id_eq]; exact fun h => hei h.symm)]
          exact hat

/-- Well-formedness (distinct primary keys) survives `applyRemote`. -/
theorem applyRemoteStore_nodup (sha256Hex : String → String) (now : Nat)
    (rl : List RemoteEntry) (tb : List Tombstone) (s0 : List Entry)
    (hnd : (s0.map Entry.id).Nodup) :
    ((applyRemoteStore sha256Hex now rl tb s0).map Entry.id).Nodup := by
  rw [applyRemoteStore_eq]
  have hids1 : ((rl.foldl (phase1Step sha256Hex now (tombRefsOf tb) s0) (s0, [])).1).map Entry.id
      = s0.map Entry.id := phase1_ids sha256Hex now (tombRefsOf tb) s0 rl s0 [] rfl
  have hids2 : ((s0.foldl (phase2Step sha256Hex now (tombRefsOf tb))
      ((rl.foldl (phase1Step sha256Hex now (tombRefsOf tb) s0) (s0, [])).1)).map Entry.id)
      = s0.map Entry.id := by
    rw [phase2_ids]
    · exact hids1
    · intro e he
      rw [hids1]
      exact List.mem_map_of_mem Entry.id he
  exact bulkPut_nodup sha256Hex _ _ (by rw [hids2]; exact hnd)

/-- C10 (amended). A tombstoned, non-pending entry of a well-formed
synced store (its id equals its non-empty txid) keeps status
`tombstoned` through `applyRemote` — even when its txid appears as a
live remote row with no matching tombstone — and its key is absent
from the returned active set. -/
theorem claim_C10_tombstoned_stays (sha256Hex : String → String) (now : Nat)
    (remoteList : List RemoteEntry) (tombstones : List Tombstone) (s0 : List Entry)
    (e : Entry) (tx : String)
    (hnd : (s0.map Entry.id).Nodup)
    (hmem : e ∈ s0) (htx : e.txid = some tx) (htxne : tx ≠ "") (hid : e.id = tx)
    (hts : e.status = "tombstoned") (hp : e.pending = false) :
    (∃ a, entryAt (applyRemoteStore sha256Hex now remoteList tombstones s0) e.id = some a ∧
        a.status = "tombstoned") ∧
    (∀ a ∈ applyRemote sha256Hex now remoteList tombstones s0, a.id ≠ e.id) := by
  have hat0 : entryAt s0 e.id = some e := mem_entryAt hnd hmem
  obtain ⟨a1, ha1, hp1, hts1⟩ := phase1_tomb_stable sha256Hex now (tombRefsOf tombstones) s0
    remoteList s0 [] hat0 hp hts
  obtain ⟨a2, ha2, hp2, hts2⟩ := phase2_tomb_stable sha256Hex now (tombRefsOf tombstones) s0 _
    ha1 hp1 hts1
  have hfil : ((remoteList.foldl (phase1Step sha256Hex now (tombRefsOf tombstones) s0)
      (s0, [])).2).filter (fun x => x.id == e.id) = [] := by
    rw [List.filter_eq_nil_iff]
    intro x hx
    rw [phase1_toAdd, List.nil_append] at hx
    rcases mem_toAdd_spec hx with ⟨r, _, hxr, _, hlkr⟩
    simp only [beq_iff_eq]
    intro hxe
    rw [hxr] at hxe
    have hrtx : r.txid = e.id := by simpa [newRemoteEntry] using hxe
    rw [hid] at hrtx
    have := lookupTx_isSome_of_mem hmem htx htxne
    rw [← hrtx] at this
    rw [hlkr] at this
    cases this
  have hfinal : entryAt (applyRemoteStore sha256Hex now remoteList tombstones s0) e.id
      = some a2 := by
    rw [applyRemoteStore_eq, bulkPut_entryAt, hfil]
    exact ha2
  refine ⟨⟨a2, hfinal, hts2⟩, ?_⟩
  intro a ha hai
  have hndF := applyRemoteStore_nodup sha256Hex now remoteList tombstones s0 hnd
  unfold applyRemote getAllActive at ha
  have hmemF := List.mem_filter.mp ha
  have : entryAt (applyRemoteStore sha256Hex now remoteList tombstones s0) a.id = some a :=
    mem_entryAt hndF hmemF.1
  rw [hai, hfinal] at this
  have haa : a = a2 := Option.some_inj.mp this.symm
  rw [haa, hts2] at hmemF
  simpa using hmemF.2

/-! ### Key order of the active list (C5) -/

theorem charsLt_iff : ∀ (as bs : List Char), charsLt as bs = true ↔ as < bs
  | [], [] => by
      constructor
      · intro h; cases h
      · intro h; cases h
  | [], b :: bs => by
      simp only [charsLt, true_iff]
      exact List.Lex.nil
  | a :: as, [] => by
      constructor
      · intro h; cases h
      · intro h; cases h
  | a :: as, b :: bs => by
      unfold charsLt
      by_cases hab : a < b
      · rw [if_pos hab]
        exact iff_of_true rfl (List.Lex.rel hab)
      · rw [if_neg hab]
        by_cases hba : b < a
        · rw [if_pos hba]
          constructor
          · intro h; cases h
          · intro h
            cases h with
            | cons h3 => exact absurd hba (lt_irrefl _)
            | rel h2 => exact absurd h2 hab
        · rw [if_neg hba]
          have hab2 : a = b := le_antisymm (not_lt.mp hba) (not_lt.mp hab)
          subst hab2
          constructor
          · intro h
            exact List.Lex.cons ((charsLt_iff as bs).mp h)
          · intro h
            cases h with
            | cons h3 => exact (charsLt_iff as bs).mpr h3
            | rel h2 => exact absurd h2 hab

theorem keyLt_iff (a b : String) : keyLt a b = true ↔ a < b :=
  (charsLt_iff a.data b.data).trans String.lt_iff_toList_lt.symm

theorem sorted_ids_insertById {e : Entry} {s : List Entry}
    (hs : (s.map Entry.id).Pairwise (· < ·)) (he : e.id ∉ s.map Entry.id) :
    ((insertById e s).map Entry.id).Pairwise (· < ·) := by
  induction s with
  | nil => simp [insertById]
  | cons x xs ih =>
      simp only [List.map_cons, List.pairwise_cons] at hs
      simp only [List.map_cons, List.mem_cons, not_or] at he
      unfold insertById
      split
      · rename_i hlt
        simp only [List.map_cons, List.pairwise_cons]
        refine ⟨?_, fun j hj => ?_, hs.2⟩
        · simp only [List.mem_cons]
          rintro j (rfl | hj)
          · exact (keyLt_iff _ _).mp hlt
          · exact lt_trans ((keyLt_iff _ _).mp hlt) (hs.1 j hj)
        · exact hs.1 j hj
      · rename_i hnlt
        have hxe : x.id < e.id := by
          rcases lt_trichotomy x.id e.id with h | h | h
          · exact h
          · exact absurd h.symm he.1
          · exact absurd ((keyLt_iff _ _).mpr h) hnlt
        simp only [List.map_cons, List.pairwise_cons]
        refine ⟨?_, ih hs.2 he.2⟩
        intro j hj
        rcases (ids_insertById e xs j).mp hj with rfl | hj2
        · exact hxe
        · exact hs.1 j hj2

theorem sorted_ids_upsert {e : Entry} {s : List Entry}
    (hs : (s.map Entry.id).Pairwise (· < ·)) :
    ((upsert e s).map Entry.id).Pairwise (· < ·) := by
  unfold upsert
  split
  · rw [ids_map_replace]
    exact hs
  · rename_i hany
    refine sorted_ids_insertById hs ?_
    intro hmem
    rcases List.mem_map.mp hmem with ⟨a, ha, hae⟩
    exact hany (List.any_eq_true.mpr ⟨a, ha, by simp [hae]⟩)

theorem bulkPut_sorted (sha256Hex : String → String) :
    ∀ (toAdd : List Entry) (s : List Entry),
      ((s.map Entry.id).Pairwise (· < ·)) →
      ((bulkPut sha256Hex toAdd s).map Entry.id).Pairwise (· < ·)
  | [], s, hs => hs
  | x :: xs, s, hs => by
      rw [bulkPut, List.foldl_cons]
      exact bulkPut_sorted sha256Hex xs _ (sorted_ids_upsert hs)

/-- A key-sorted store stays key-sorted through `applyRemote`. -/
theorem applyRemoteStore_sorted (sha256Hex : String → String) (now : Nat)
    (rl : List RemoteEntry) (tb : List Tombstone) (s0 : List Entry)
    (hs : (s0.map Entry.id).Pairwise (· < ·)) :
    ((applyRemoteStore sha256Hex now rl tb s0).map Entry.id).Pairwise (· < ·) := by
  rw [applyRemoteStore_eq]
  have hids1 : ((rl.foldl (phase1Step sha256Hex now (tombRefsOf tb) s0) (s0, [])).1).map Entry.id
      = s0.map Entry.id := phase1_ids sha256Hex now (tombRefsOf tb) s0 rl s0 [] rfl
  have hids2 : ((s0.foldl (phase2Step sha256Hex now (tombRefsOf tb))
      ((rl.foldl (phase1Step sha256Hex now (tombRefsOf tb) s0) (s0, [])).1)).map Entry.id)
      = s0.map Entry.id := by
    rw [phase2_ids]
    · exact hids1
    · intro e he
      rw [hids1]
      exact List.mem_map_of_mem Entry.id he
  exact bulkPut_sorted sha256Hex _ _ (by rw [hids2]; exact hs)

/-- C5 (amended). `applyRemote` returns exactly the non-tombstoned
entries of the reconciled store, in ascending primary-key (IndexedDB
cursor) order — not ordered by `dateRead`; the `dateRead` ordering is
applied by the caller (`orderEntries`) after reconciliation. -/
theorem claim_C5_active_set_key_order (sha256Hex : String → String) (now : Nat)
    (remoteList : List RemoteEntry) (tombstones : List Tombstone) (s0 : List Entry)
    (hs : (s0.map Entry.id).Pairwise (· < ·)) :
    (∀ a, a ∈ applyRemote sha256Hex now remoteList tombstones s0 ↔
        a ∈ applyRemoteStore sha256Hex now remoteList tombstones s0 ∧
          a.status ≠ "tombstoned") ∧
    ((applyRemote sha256Hex now remoteList tombstones s0).map Entry.id).Pairwise (· < ·) := by
  constructor
  · intro a
    unfold applyRemote getAllActive
    rw [List.mem_filter]
    constructor
    · rintro ⟨h1, h2⟩
      exact ⟨h1, by simpa using h2⟩
    · rintro ⟨h1, h2⟩
      exact ⟨h1, by simpa using h2⟩
  · have hsub : (applyRemote sha256Hex now remoteList tombstones s0).map Entry.id
        |>.Sublist ((applyRemoteStore sha256Hex now remoteList tombstones s0).map Entry.id) :=
      List.Sublist.map Entry.id (List.filter_sublist _)
    exact (applyRemoteStore_sorted sha256Hex now remoteList tombstones s0 hs).sublist hsub

/-! ### Duplicate detection (C7) -/

theorem computeContentHash_ne_empty (sha256Hex : String → String) (e : Entry) :
    ¬(computeContentHash sha256Hex e = "") := by
  intro h
  have hlen := congrArg String.length h
  rw [computeContentHash, String.length_append] at hlen
  have h7 : ("sha256-" : String).length = 7 := rfl
  rw [h7] at hlen
  simp at hlen

/-- C7 (amended). Payloads that agree on (title, author, edition,
format, dateRead) — for instance, differing only in `coverImage` —
yield the same `contentFingerprint`; and when the store holds exactly
one entry with that fingerprint and it is not tombstoned,
`detectDuplicate` returns it. (As stated over all stores the claim
fails: `detectDuplicate` returns the first fingerprint match in key
order and yields `null` when that first match is tombstoned, even if a
later live match exists.) -/
theorem claim_C7_duplicate_detection (sha256Hex : String → String) :
    (∀ p q : Entry, p.title = q.title → p.author = q.author → p.edition = q.edition →
        p.format = q.format → p.dateRead = q.dateRead →
        computeContentHash sha256Hex p = computeContentHash sha256Hex q) ∧
    (∀ (payload : Entry) (s : List Entry) (e : Entry),
        s.filter (fun x => x.contentHash == computeContentHash sha256Hex payload) = [e] →
        e.status ≠ "tombstoned" →
        detectDuplicate sha256Hex payload s = some e) := by
  constructor
  · intro p q h1 h2 h3 h4 h5
    unfold computeContentHash entryBase
    rw [h1, h2, h3, h4, h5]
  · intro payload s e hfil hlive
    unfold detectDuplicate findByContentHash
    rw [if_neg (by simpa using computeContentHash_ne_empty sha256Hex payload)]
    rw [hfil]
    simp only [List.head?_cons]
    rw [if_pos (by simpa using hlive)]

/-! ### Replay queue ordering and failure halt (C6) -/

theorem listOps_sorted (qs : List Op) :
    (listOps qs).Pairwise (fun a b => a.createdAt ≤ b.createdAt) := by
  unfold listOps
  have h := @List.sorted_mergeSort Op
    (fun a b : Op => a.createdAt ≤ b.createdAt)
    (fun a b c hab hbc => by
      simp only [decide_eq_true_eq] at hab hbc ⊢
      omega)
    (fun a b => by
      simp only [Bool.or_eq_true, decide_eq_true_eq]
      omega)
    qs
  exact h.imp (fun hab => by simpa using hab)

theorem replayLoop_attempted_sublist (sha256Hex : String → String)
    (upload : Op → Option String) :
    ∀ (ops : List Op) (store : List Op) (est es : List Entry) (tr : List Op),
      (replayLoop sha256Hex upload ops store est es tr).attempted.Sublist (tr ++ ops)
  | [], store, est, es, tr => by
      simp [replayLoop]
  | op :: rest, store, est, es, tr => by
      unfold replayLoop
      have hsub1 : (tr ++ rest).Sublist (tr ++ op :: rest) :=
        List.Sublist.append_left (List.sublist_cons_self op rest) tr
      have hsub2 : ((tr ++ [op]) ++ rest).Sublist (tr ++ op :: rest) := by
        rw [List.append_assoc]
        simp
      split
      · split
        · exact (replayLoop_attempted_sublist sha256Hex upload rest _ est es tr).trans hsub1
        · split
          · exact (replayLoop_attempted_sublist sha256Hex upload rest _ est es tr).trans hsub1
          · split
            · exact (replayLoop_attempted_sublist sha256Hex upload rest _ _ _ _).trans hsub2
            · simpa using hsub2
      · exact (replayLoop_attempted_sublist sha256Hex upload rest _ est es tr).trans hsub1

/-- C6. A replay pass visits queued operations in ascending
enqueue-time (`createdAt`) order; the attempted remote writes follow
that order; and when the remote write for an operation fails, the loop
stops at once — nothing after it is attempted, the ops store is left
untouched, so the failed operation stays queued for the next pass. -/
theorem claim_C6_replay_fifo_halts (sha256Hex : String → String)
    (upload : Op → Option String) (qs : List Op) (est es : List Entry) :
    (listOps qs).Pairwise (fun a b => a.createdAt ≤ b.createdAt) ∧
    ((replayOps sha256Hex upload qs est es).attempted.Sublist (listOps qs) ∧
      (replayOps sha256Hex upload qs est es).attempted.Pairwise
        (fun a b => a.createdAt ≤ b.createdAt)) ∧
    (∀ (op : Op) (rest store : List Op) (est' es' : List Entry) (tr : List Op),
        needsUpload es' op = true → upload op = none →
        replayLoop sha256Hex upload (op :: rest) store est' es' tr
          = ⟨store, est', es', tr ++ [op]⟩) := by
  refine ⟨listOps_sorted qs, ⟨?_, ?_⟩, ?_⟩
  · have := replayLoop_attempted_sublist sha256Hex upload (listOps qs) qs est es []
    simpa [replayOps] using this
  · have hsub : (replayOps sha256Hex upload qs est es).attempted.Sublist (listOps qs) := by
      have := replayLoop_attempted_sublist sha256Hex upload (listOps qs) qs est es []
      simpa [replayOps] using this
    exact (listOps_sorted qs).sublist hsub
  · intro op rest store est' es' tr hneed hfail
    unfold needsUpload at hneed
    rw [Bool.and_eq_true] at hneed
    obtain ⟨htype, hloc⟩ := hneed
    cases hfind : es'.find? (fun e => e.id == op.localId) with
    | none => rw [hfind] at hloc; cases hloc
    | some l =>
        rw [hfind] at hloc
        have htr : truthyOpt l.txid = false := by simpa using hloc
        unfold replayLoop
        rw [if_pos htype, hfind]
        dsimp only
        rw [if_neg (by simp [htr]), hfail]

/-! ### Idempotence of reconciliation (C4) -/

theorem contains_eq_false_of_not_mem {l : List String} {x : String} (h : x ∉ l) :
    l.contains x = false := by
  induction l with
  | nil => rfl
  | cons y ys ih =>
      simp only [List.mem_cons, not_or] at h
      simp only [List.contains_cons, Bool.or_eq_false_iff]
      exact ⟨by simpa using fun hx => h.1 hx, ih h.2⟩

theorem mem_of_contains {l : List String} {x : String} (h : l.contains x = true) : x ∈ l := by
  by_contra hc
  rw [contains_eq_false_of_not_mem hc] at h
  cases h

theorem empty_not_mem_tombRefs (tb : List Tombstone) : "" ∉ tombRefsOf tb := by
  intro h
  have := (List.mem_filter.mp h).2
  simp at this

theorem id_mem_of_entryAt_isSome {s : List Entry} {i : String}
    (h : (entryAt s i).isSome = true) : i ∈ s.map Entry.id := by
  obtain ⟨a, ha⟩ := Option.isSome_iff_exists.mp h
  obtain ⟨hmem, hid⟩ := entryAt_mem ha
  exact hid ▸ List.mem_map_of_mem Entry.id hmem

/-- The sync invariant: every entry carrying a real (non-empty) txid is
keyed by it. All states reached through the app's flows satisfy it. -/
def SyncInv (s : List Entry) : Prop :=
  ∀ a ∈ s, ∀ t, a.txid = some t → ¬(t = "") → a.id = t

/-- `applyRemote` preserves the sync invariant. -/
theorem applyRemoteStore_syncInv (sha256Hex : String → String) (now : Nat)
    (rl : List RemoteEntry) (tb : List Tombstone) (s0 : List Entry)
    (hI : SyncInv s0) : SyncInv (applyRemoteStore sha256Hex now rl tb s0) := by
  intro a ha t htx htne
  rw [applyRemoteStore_eq] at ha
  rcases mem_bulkPut sha256Hex _ _ a ha with ⟨x, hxmem, hax⟩ | h2
  · rw [phase1_toAdd, List.nil_append] at hxmem
    rcases mem_toAdd_spec hxmem with ⟨r, _, hxr, _, _⟩
    subst hax
    rw [hxr] at htx ⊢
    simp only [ensureContentHash_txid, ensureContentHash_id] at htx ⊢
    have : r.txid = t := by simpa [newRemoteEntry] using htx
    simp [newRemoteEntry, this]
  · have hall1 : ∀ b ∈ (rl.foldl (phase1Step sha256Hex now (tombRefsOf tb) s0) (s0, [])).1,
        ∀ t', b.txid = some t' → ¬(t' = "") → b.id = t' := by
      refine phase1_all sha256Hex now (tombRefsOf tb) s0 _ ?_ ?_ rl s0 [] ?_
      · intro cur hcur t' ht' hne
        simp only [ensureContentHash_txid, confirmSeen_txid] at ht'
        simp only [ensureContentHash_id, confirmSeen_id]
        exact hcur t' ht' hne
      · exact fun e0 he0 => hI e0 he0
      · exact fun b hb => hI b hb
    have hall2 : ∀ b ∈ (s0.foldl (phase2Step sha256Hex now (tombRefsOf tb))
        ((rl.foldl (phase1Step sha256Hex now (tombRefsOf tb) s0) (s0, [])).1)),
        ∀ t', b.txid = some t' → ¬(t' = "") → b.id = t' := by
      refine phase2_all sha256Hex now (tombRefsOf tb) _ ?_ s0 _ hall1 ?_
      · intro cur hcur t' ht' hne
        simp only [ensureContentHash_txid, tombstonedOf_txid] at ht'
        simp only [ensureContentHash_id, tombstonedOf_id]
        exact hcur t' ht' hne
      · exact fun e he => hI e he
    exact hall2 a h2 t htx htne

/-- If no non-tombstoned-skipped remote row needs a write, phase 1
leaves the store untouched. -/
theorem phase1_noop (sha256Hex : String → String) (now : Nat) (tombRefs : List String)
    (localAll : List Entry) :
    ∀ (rl : List RemoteEntry) (s t : List Entry),
      (∀ r ∈ rl, tombRefs.contains r.txid = false →
        ∀ e0, lookupTx localAll r.txid = some e0 →
          (((entryAt s e0.id).getD e0).pending
            || !((entryAt s e0.id).getD e0).seenRemote) = false) →
      ((rl.foldl (phase1Step sha256Hex now tombRefs localAll) (s, t)).1) = s
  | [], s, t, _ => rfl
  | r :: rl, s, t, hst => by
      rw [List.foldl_cons]
      by_cases hc : tombRefs.contains r.txid = true
      · rw [phase1Step_contains hc]
        exact phase1_noop sha256Hex now tombRefs localAll rl s t
          (fun r' hr' => hst r' (List.mem_cons_of_mem _ hr'))
      · have hc' : tombRefs.contains r.txid = false := by simpa using hc
        cases hlk : lookupTx localAll r.txid with
        | none =>
            rw [phase1Step_miss hc' hlk]
            exact phase1_noop sha256Hex now tombRefs localAll rl s _
              (fun r' hr' => hst r' (List.mem_cons_of_mem _ hr'))
        | some e0 =>
            rw [phase1Step_hit hc' hlk]
            rw [if_neg (by rw [hst r (List.mem_cons_self _ _) hc' e0 hlk]; simp)]
            exact phase1_noop sha256Hex now tombRefs localAll rl s t
              (fun r' hr' => hst r' (List.mem_cons_of_mem _ hr'))

/-- If every visited record fails the tombstoning guard, phase 2 leaves
the store untouched. -/
theorem phase2_noop (sha256Hex : String → String) (now : Nat) (tombRefs : List String) :
    ∀ (L : List Entry) (s : List Entry),
      (∀ e ∈ L, (truthyOpt ((entryAt s e.id).getD e).txid
          && tombRefs.contains (((entryAt s e.id).getD e).txid.getD "")
          && !(((entryAt s e.id).getD e).status == "tombstoned")) = false) →
      L.foldl (phase2Step sha256Hex now tombRefs) s = s
  | [], s, _ => rfl
  | e :: L, s, hg => by
      rw [List.foldl_cons]
      have hstep : phase2Step sha256Hex now tombRefs s e = s := by
        unfold phase2Step
        rw [if_neg (by rw [hg e (List.mem_cons_self _ _)]; simp)]
      rw [hstep]
      exact phase2_noop sha256Hex now tombRefs L s
        (fun e' he' => hg e' (List.mem_cons_of_mem _ he'))

/-- The contribution of a remote row with an empty (falsy) txid. -/
def emptyAdd (sha256Hex : String → String) (now : Nat) (r : RemoteEntry) : Option Entry :=
  if r.txid == "" then some (ensureContentHash sha256Hex (newRemoteEntry now r)) else none

theorem toAdd_filter_empty (sha256Hex : String → String) (now : Nat) (tombRefs : List String)
    (localAll : List Entry) (hTR : tombRefs.contains "" = false) :
    ∀ rl : List RemoteEntry,
      (rl.filterMap (phase1AddFn sha256Hex now tombRefs localAll)).filter
          (fun x => x.id == "")
        = rl.filterMap (emptyAdd sha256Hex now)
  | [] => rfl
  | r :: rl => by
      rw [List.filterMap_cons, List.filterMap_cons]
      by_cases hre : r.txid = ""
      · have hfn : phase1AddFn sha256Hex now tombRefs localAll r
            = some (ensureContentHash sha256Hex (newRemoteEntry now r)) := by
          unfold phase1AddFn
          rw [hre]
          rw [if_neg (by rw [hTR]; simp), lookupTx_empty]
        have hea : emptyAdd sha256Hex now r
            = some (ensureContentHash sha256Hex (newRemoteEntry now r)) := by
          unfold emptyAdd
          rw [if_pos (by simp [hre])]
        rw [hfn, hea, List.filter_cons]
        rw [if_pos (by simp [newRemoteEntry, hre])]
        rw [toAdd_filter_empty sha256Hex now tombRefs localAll hTR rl]
      · have hea : emptyAdd sha256Hex now r = none := by
          unfold emptyAdd
          rw [if_neg (by simpa using hre)]
        rw [hea]
        cases hfn : phase1AddFn sha256Hex now tombRefs localAll r with
        | none => exact toAdd_filter_empty sha256Hex now tombRefs localAll hTR rl
        | some x =>
            have hxid : x.id = r.txid := by
              unfold phase1AddFn at hfn
              by_cases hct : tombRefs.contains r.txid = true
              · rw [if_pos hct] at hfn; cases hfn
              · rw [if_neg hct] at hfn
                cases hlk : lookupTx localAll r.txid with
                | some _ => rw [hlk] at hfn; cases hfn
                | none =>
                    rw [hlk] at hfn
                    rw [← Option.some_inj.mp hfn]
                    simp [newRemoteEntry]
            rw [List.filter_cons]
            rw [if_neg (by simp [hxid]; exact hre)]
            exact toAdd_filter_empty sha256Hex now tombRefs localAll hTR rl

/-- A remote row matching a local snapshot entry leaves that entry's
key holding a confirmed-and-seen record after phase 1. -/
theorem phase1_confirms (sha256Hex : String → String) (now : Nat) (tombRefs : List String)
    (localAll : List Entry) :
    ∀ (rl : List RemoteEntry) (s t : List Entry) {r : RemoteEntry} {e0 : Entry},
      r ∈ rl → tombRefs.contains r.txid = false → lookupTx localAll r.txid = some e0 →
      s.map Entry.id = localAll.map Entry.id →
      ∃ a, entryAt ((rl.foldl (phase1Step sha256Hex now tombRefs localAll) (s, t)).1) e0.id
          = some a ∧ a.pending = false ∧ a.seenRemote = true
  | [], _, _, r, _, hr, _, _, _ => absurd hr (List.not_mem_nil r)
  | r' :: rl, s, t, r, e0, hr, hc, hlk, hids => by
      rcases List.mem_cons.mp hr with rfl | hmem
      · rw [List.foldl_cons, phase1Step_hit hc hlk]
        by_cases hg : (((entryAt s e0.id).getD e0).pending
            || !((entryAt s e0.id).getD e0).seenRemote) = true
        · rw [if_pos hg]
          have hat : entryAt (putEntry sha256Hex (confirmSeen ((entryAt s e0.id).getD e0)) s)
              e0.id
              = some (ensureContentHash sha256Hex (confirmSeen ((entryAt s e0.id).getD e0))) := by
            unfold putEntry
            rw [entryAt_upsert, if_pos (by simp [cur_id_eq])]
          exact ⟨_, phase1_stable sha256Hex now tombRefs localAll rl _ t hat (by simp) (by simp),
            by simp, by simp⟩
        · rw [if_neg hg]
          have hg2 : ((entryAt s e0.id).getD e0).pending = false
              ∧ ((entryAt s e0.id).getD e0).seenRemote = true := by
            simpa using hg
          obtain ⟨c, hcat⟩ := Option.isSome_iff_exists.mp (entryAt_isSome_of_id_mem
            (by rw [hids]; exact List.mem_map_of_mem Entry.id (lookupTx_some hlk).1))
          rw [hcat] at hg2
          exact ⟨c, phase1_stable sha256Hex now tombRefs localAll rl s t hcat hg2.1 hg2.2,
            hg2.1, hg2.2⟩
      · rw [List.foldl_cons]
        rcases phase1Step_eq sha256Hex now tombRefs localAll (s, t) r'
          with heq | ⟨e1, hlk1, _, heq⟩ | ⟨_, _, heq⟩
        · rw [heq]
          exact phase1_confirms sha256Hex now tombRefs localAll rl s t hmem hc hlk hids
        · rw [heq]
          have he1 : e1.id ∈ s.map Entry.id := by
            rw [hids]
            exact List.mem_map_of_mem Entry.id (lookupTx_some hlk1).1
          have hput : (putEntry sha256Hex (confirmSeen ((entryAt s e1.id).getD e1)) s).map
              Entry.id = s.map Entry.id := by
            unfold putEntry
            apply ids_upsert_of_mem
            rw [List.any_eq_true]
            rcases List.mem_map.mp he1 with ⟨a, ha, hae⟩
            exact ⟨a, ha, by simp [hae, cur_id_eq]⟩
          exact phase1_confirms sha256Hex now tombRefs localAll rl _ t hmem hc hlk
            (hput.trans hids)
        · rw [heq]
          exact phase1_confirms sha256Hex now tombRefs localAll rl s _ hmem hc hlk hids

/-- The sync invariant already holds before `bulkPut`, after the two
loops of `applyRemote`. -/
theorem phase12_syncInv (sha256Hex : String → String) (now : Nat)
    (rl : List RemoteEntry) (tb : List Tombstone) (s0 : List Entry)
    (hI : SyncInv s0) :
    ∀ b ∈ s0.foldl (phase2Step sha256Hex now (tombRefsOf tb))
        ((rl.foldl (phase1Step sha256Hex now (tombRefsOf tb) s0) (s0, [])).1),
      ∀ t, b.txid = some t → ¬(t = "") → b.id = t := by
  have hall1 : ∀ b ∈ (rl.foldl (phase1Step sha256Hex now (tombRefsOf tb) s0) (s0, [])).1,
      ∀ t', b.txid = some t' → ¬(t' = "") → b.id = t' := by
    refine phase1_all sha256Hex now (tombRefsOf tb) s0 _ ?_ ?_ rl s0 [] ?_
    · intro cur hcur t' ht' hne
      simp only [ensureContentHash_txid, confirmSeen_txid] at ht'
      simp only [ensureContentHash_id, confirmSeen_id]
      exact hcur t' ht' hne
    · exact fun e0 he0 => hI e0 he0
    · exact fun b hb => hI b hb
  refine phase2_all sha256Hex now (tombRefsOf tb) _ ?_ s0 _ hall1 ?_
  · intro cur hcur t' ht' hne
    simp only [ensureContentHash_txid, tombstonedOf_txid] at ht'
    simp only [ensureContentHash_id, tombstonedOf_id]
    exact hcur t' ht' hne
  · exact fun e he => hI e he

theorem no_entry_of_lookupTx_none {l : List Entry} {tx : String}
    (h : lookupTx l tx = none) (hne : ¬(tx = "")) : ∀ e ∈ l, e.txid ≠ some tx := by
  intro e he hcon
  have hs := lookupTx_isSome_of_mem he hcon hne
  rw [h] at hs
  cases hs

/-- If no snapshot entry carries a given txid, none does after the two
loops either. -/
theorem phase12_no_txid (sha256Hex : String → String) (now : Nat)
    (rl : List RemoteEntry) (tb : List Tombstone) (s0 : List Entry) {tx : String}
    (hnone : ∀ e ∈ s0, e.txid ≠ some tx) :
    ∀ b ∈ s0.foldl (phase2Step sha256Hex now (tombRefsOf tb))
        ((rl.foldl (phase1Step sha256Hex now (tombRefsOf tb) s0) (s0, [])).1),
      b.txid ≠ some tx := by
  have hall1 := phase1_all sha256Hex now (tombRefsOf tb) s0 (fun e => e.txid ≠ some tx)
    (fun cur hcur => by simpa using hcur) hnone rl s0 [] hnone
  exact phase2_all sha256Hex now (tombRefsOf tb) (fun e => e.txid ≠ some tx)
    (fun cur hcur => by simpa using hcur) s0 _ hall1 hnone

/-- When a remote txid matches a local entry, phase 1 queues no
addition under that key. -/
theorem toAdd_no_id_of_lookup_some {sha256Hex : String → String} {now : Nat}
    {tombRefs : List String} {localAll : List Entry} {rl : List RemoteEntry}
    {tx : String} {e0 : Entry} (hlk : lookupTx localAll tx = some e0) :
    ∀ x ∈ rl.filterMap (phase1AddFn sha256Hex now tombRefs localAll), ¬(x.id = tx) := by
  intro x hx hxid
  rcases mem_toAdd_spec hx with ⟨r, _, hxr, _, hlkr⟩
  have hrt : r.txid = tx := by
    rw [hxr] at hxid
    simpa [newRemoteEntry] using hxid
  rw [hrt, hlk] at hlkr
  cases hlkr

/-- Core fact behind C4. After `applyRemote` on a well-formed synced
store, every remote txid that is live (not tombstoned, non-empty) is
carried by some record, and every record carrying it is confirmed
(`pending` cleared) and marked seen. -/
theorem applyRemoteStore_confirmed (sha256Hex : String → String) (now : Nat)
    (rl : List RemoteEntry) (tb : List Tombstone) (s0 : List Entry)
    (hnd : (s0.map Entry.id).Nodup) (hI : SyncInv s0)
    {r : RemoteEntry} (hr : r ∈ rl)
    (hc : (tombRefsOf tb).contains r.txid = false) (hne : ¬(r.txid = "")) :
    (∃ b ∈ applyRemoteStore sha256Hex now rl tb s0, b.txid = some r.txid) ∧
    (∀ b ∈ applyRemoteStore sha256Hex now rl tb s0,
      b.txid = some r.txid → b.pending = false ∧ b.seenRemote = true) := by
  have hids1 : ((rl.foldl (phase1Step sha256Hex now (tombRefsOf tb) s0) (s0, [])).1).map Entry.id
      = s0.map Entry.id := phase1_ids sha256Hex now (tombRefsOf tb) s0 rl s0 [] rfl
  have hids2 : ((s0.foldl (phase2Step sha256Hex now (tombRefsOf tb))
      ((rl.foldl (phase1Step sha256Hex now (tombRefsOf tb) s0) (s0, [])).1)).map Entry.id)
      = s0.map Entry.id := by
    rw [phase2_ids]
    · exact hids1
    · intro e he
      rw [hids1]
      exact List.mem_map_of_mem Entry.id he
  have hndS2 : ((s0.foldl (phase2Step sha256Hex now (tombRefsOf tb))
      ((rl.foldl (phase1Step sha256Hex now (tombRefsOf tb) s0) (s0, [])).1)).map
      Entry.id).Nodup := by
    rw [hids2]; exact hnd
  have htoAdd : (rl.foldl (phase1Step sha256Hex now (tombRefsOf tb) s0) (s0, [])).2
      = rl.filterMap (phase1AddFn sha256Hex now (tombRefsOf tb) s0) := by
    rw [phase1_toAdd, List.nil_append]
  cases hlk : lookupTx s0 r.txid with
  | some e0 =>
      obtain ⟨he0mem, he0tx, _⟩ := lookupTx_some hlk
      have hid0 : e0.id = r.txid := hI e0 he0mem r.txid he0tx hne
      obtain ⟨a, hat1, hap, has⟩ :=
        phase1_confirms sha256Hex now (tombRefsOf tb) s0 rl s0 [] hr hc hlk rfl
      have hatx : a.txid = some r.txid := by
        have hp := phase1_entry_proj Entry.txid sha256Hex now (tombRefsOf tb) s0
          (by intro cur; simp) rl s0 [] e0.id rfl
        rw [hat1, mem_entryAt hnd he0mem] at hp
        simpa [he0tx] using hp
      have hat2 : (entryAt (s0.foldl (phase2Step sha256Hex now (tombRefsOf tb))
          ((rl.foldl (phase1Step sha256Hex now (tombRefsOf tb) s0) (s0, [])).1)) e0.id).map
          (fun e => (e.txid, e.pending, e.seenRemote)) = some (some r.txid, false, true) := by
        have hp2 := phase2_entry_proj (fun e => (e.txid, e.pending, e.seenRemote)) sha256Hex now
          (tombRefsOf tb) (by intro cur; simp) s0
          ((rl.foldl (phase1Step sha256Hex now (tombRefsOf tb) s0) (s0, [])).1) e0.id
          (fun e he => by rw [hids1]; exact List.mem_map_of_mem Entry.id he)
        rw [hp2, hat1]
        simp [hatx, hap, has]
      obtain ⟨b2, hb2at, hb2f⟩ := Option.map_eq_some'.mp hat2
      simp only [Prod.mk.injEq] at hb2f
      have hfilt : ((rl.foldl (phase1Step sha256Hex now (tombRefsOf tb) s0) (s0, [])).2).filter
          (fun x => x.id == e0.id) = [] := by
        rw [htoAdd]
        refine List.filter_eq_nil_iff.mpr ?_
        intro x hx
        simp only [beq_iff_eq]
        rw [hid0]
        exact toAdd_no_id_of_lookup_some hlk x hx
      have hatF : entryAt (applyRemoteStore sha256Hex now rl tb s0) e0.id = some b2 := by
        rw [applyRemoteStore_eq, bulkPut_entryAt, hfilt]
        exact hb2at
      constructor
      · exact ⟨b2, (entryAt_mem hatF).1, hb2f.1⟩
      · intro b hb hbtx
        rw [applyRemoteStore_eq] at hb
        rcases mem_bulkPut sha256Hex _ _ b hb with ⟨x, hxmem, hbx⟩ | hbS2
        · rw [htoAdd] at hxmem
          rcases mem_toAdd_spec hxmem with ⟨r1, _, hxr1, _, _⟩
          subst hbx
          rw [hxr1]
          constructor <;> simp [newRemoteEntry]
        · have hbid : b.id = r.txid :=
            phase12_syncInv sha256Hex now rl tb s0 hI b hbS2 r.txid hbtx hne
          have hbat := mem_entryAt hndS2 hbS2
          rw [hbid, ← hid0] at hbat
          rw [hbat] at hb2at
          have hbb2 : b = b2 := Option.some_inj.mp hb2at
          exact ⟨by rw [hbb2]; exact hb2f.2.1, by rw [hbb2]; exact hb2f.2.2⟩
  | none =>
      have hnotx : ∀ e ∈ s0, e.txid ≠ some r.txid := no_entry_of_lookupTx_none hlk hne
      have hxadd : ensureContentHash sha256Hex (newRemoteEntry now r)
          ∈ rl.filterMap (phase1AddFn sha256Hex now (tombRefsOf tb) s0) := by
        refine List.mem_filterMap.mpr ⟨r, hr, ?_⟩
        unfold phase1AddFn
        rw [if_neg (by rw [hc]; simp), hlk]
      have hxin : ensureContentHash sha256Hex (newRemoteEntry now r)
          ∈ (rl.filterMap (phase1AddFn sha256Hex now (tombRefsOf tb) s0)).filter
            (fun x => x.id == r.txid) :=
        List.mem_filter.mpr ⟨hxadd, by simp [newRemoteEntry]⟩
      obtain ⟨y, hy⟩ := Option.isSome_iff_exists.mp
        (List.getLast?_isSome.mpr (List.ne_nil_of_mem hxin))
      have hymem := List.mem_of_mem_getLast? (Option.mem_def.mpr hy)
      obtain ⟨hytoAdd, hyid⟩ := List.mem_filter.mp hymem
      rcases mem_toAdd_spec hytoAdd with ⟨r2, _, hyr2, _, _⟩
      have hytx : y.txid = some r.txid := by
        have hid2 : y.id = r.txid := beq_iff_eq.mp hyid
        rw [hyr2] at hid2 ⊢
        simp only [ensureContentHash_id, ensureContentHash_txid] at hid2 ⊢
        simp only [newRemoteEntry] at hid2 ⊢
        rw [hid2]
      have hatF : entryAt (applyRemoteStore sha256Hex now rl tb s0) r.txid
          = some (ensureContentHash sha256Hex y) := by
        rw [applyRemoteStore_eq, bulkPut_entryAt, htoAdd, hy]
      constructor
      · exact ⟨_, (entryAt_mem hatF).1, by simpa using hytx⟩
      · intro b hb hbtx
        rw [applyRemoteStore_eq] at hb
        rcases mem_bulkPut sha256Hex _ _ b hb with ⟨x, hxmem, hbx⟩ | hbS2
        · rw [htoAdd] at hxmem
          rcases mem_toAdd_spec hxmem with ⟨r1, _, hxr1, _, _⟩
          subst hbx
          rw [hxr1]
          constructor <;> simp [newRemoteEntry]
        · exact absurd hbtx (phase12_no_txid sha256Hex now rl tb s0 hnotx b hbS2)

theorem mem_emptyAdd {sha256Hex : String → String} {now : Nat} {rl : List RemoteEntry}
    {x : Entry} (hx : x ∈ rl.filterMap (emptyAdd sha256Hex now)) : x.id = "" := by
  rcases List.mem_filterMap.mp hx with ⟨r, _, hfn⟩
  unfold emptyAdd at hfn
  by_cases hre : (r.txid == "") = true
  · rw [if_pos hre] at hfn
    rw [← Option.some_inj.mp hfn]
    simp [newRemoteEntry, beq_iff_eq.mp hre]
  · rw [if_neg hre] at hfn
    cases hfn

/-- On the reconciled store, the second pass's `toAdd` computation
keeps exactly the remote rows with an empty (falsy) txid. -/
theorem phase1AddFn_pass2 (sha256Hex : String → String) (now : Nat)
    (rl : List RemoteEntry) (tb : List Tombstone) (s0 : List Entry)
    (hnd : (s0.map Entry.id).Nodup) (hI : SyncInv s0) :
    ∀ r ∈ rl, phase1AddFn sha256Hex now (tombRefsOf tb)
        (applyRemoteStore sha256Hex now rl tb s0) r = emptyAdd sha256Hex now r := by
  intro r hr
  by_cases hct : (tombRefsOf tb).contains r.txid = true
  · have hne : ¬(r.txid = "") := by
      intro h0
      rw [h0, contains_eq_false_of_not_mem (empty_not_mem_tombRefs tb)] at hct
      cases hct
    unfold phase1AddFn emptyAdd
    rw [if_pos hct, if_neg (by simpa using hne)]
  · have hc : (tombRefsOf tb).contains r.txid = false := by simpa using hct
    by_cases hre : r.txid = ""
    · unfold phase1AddFn emptyAdd
      rw [if_neg (by rw [hc]; simp), hre, lookupTx_empty, if_pos (by simp)]
    · obtain ⟨b, hbmem, hbtx⟩ :=
        (applyRemoteStore_confirmed sha256Hex now rl tb s0 hnd hI hr hc hre).1
      obtain ⟨e, he⟩ := Option.isSome_iff_exists.mp (lookupTx_isSome_of_mem hbmem hbtx hre)
      unfold phase1AddFn emptyAdd
      rw [if_neg (by rw [hc]; simp), he, if_neg (by simpa using hre)]

/-- C4 (amended). Reconciliation is idempotent on well-formed synced
stores: when the store has distinct primary keys (as IndexedDB
enforces) and every entry carrying a non-empty txid is keyed by it —
the shape `applyRemote` itself produces and preserves — running
`applyRemote` twice with the same snapshot, tombstones and clock
leaves the store of the first run unchanged and returns the same
active set. (Unrestricted the claim fails: an entry whose key equals
one remote txid while carrying a different one makes the second pass
re-add a row the first pass dropped.) -/
theorem claim_C4_reconcile_idempotent (sha256Hex : String → String) (now : Nat)
    (remoteList : List RemoteEntry) (tombstones : List Tombstone) (s0 : List Entry)
    (hnd : (s0.map Entry.id).Nodup) (hI : SyncInv s0) :
    applyRemoteStore sha256Hex now remoteList tombstones
        (applyRemoteStore sha256Hex now remoteList tombstones s0)
      = applyRemoteStore sha256Hex now remoteList tombstones s0 ∧
    applyRemote sha256Hex now remoteList tombstones
        (applyRemoteStore sha256Hex now remoteList tombstones s0)
      = applyRemote sha256Hex now remoteList tombstones s0 := by
  set s1 := applyRemoteStore sha256Hex now remoteList tombstones s0 with hs1
  have hnd1 : (s1.map Entry.id).Nodup :=
    applyRemoteStore_nodup sha256Hex now remoteList tombstones s0 hnd
  have hno1 : ∀ r ∈ remoteList, (tombRefsOf tombstones).contains r.txid = false →
      ∀ e0, lookupTx s1 r.txid = some e0 →
        (((entryAt s1 e0.id).getD e0).pending
          || !((entryAt s1 e0.id).getD e0).seenRemote) = false := by
    intro r hr hc e0 hlk
    obtain ⟨he0mem, he0tx, he0truthy⟩ := lookupTx_some hlk
    have hne : ¬(r.txid = "") := by
      rw [he0tx] at he0truthy
      simpa [truthyOpt] using he0truthy
    have hconf := (applyRemoteStore_confirmed sha256Hex now remoteList tombstones s0
      hnd hI hr hc hne).2 e0 he0mem he0tx
    rw [mem_entryAt hnd1 he0mem]
    simp [hconf.1, hconf.2]
  have hno2 : ∀ e ∈ s1, (truthyOpt ((entryAt s1 e.id).getD e).txid
      && (tombRefsOf tombstones).contains (((entryAt s1 e.id).getD e).txid.getD "")
      && !(((entryAt s1 e.id).getD e).status == "tombstoned")) = false := by
    intro e he
    rw [mem_entryAt hnd1 he]
    simp only [Option.getD_some]
    cases htx : e.txid with
    | none => simp [truthyOpt]
    | some t =>
        by_cases ht : t = ""
        · simp [truthyOpt, ht]
        · by_cases hct : (tombRefsOf tombstones).contains t = true
          · have hst := applyRemoteStore_tombstone_ref sha256Hex now remoteList tombstones s0 t
              hnd (mem_of_contains hct) ht e he htx
            simp [hst]
          · have hct' : (tombRefsOf tombstones).contains t = false := by simpa using hct
            simp only [Option.getD_some]
            rw [hct']
            simp
  have hTR : (tombRefsOf tombstones).contains "" = false :=
    contains_eq_false_of_not_mem (empty_not_mem_tombRefs tombstones)
  have h1 : (remoteList.foldl (phase1Step sha256Hex now (tombRefsOf tombstones) s1)
      (s1, [])).1 = s1 :=
    phase1_noop sha256Hex now (tombRefsOf tombstones) s1 remoteList s1 [] hno1
  have h2 : s1.foldl (phase2Step sha256Hex now (tombRefsOf tombstones))
      ((remoteList.foldl (phase1Step sha256Hex now (tombRefsOf tombstones) s1)
        (s1, [])).1) = s1 := by
    rw [h1]
    exact phase2_noop sha256Hex now (tombRefsOf tombstones) s1 s1 hno2
  have htoAdd2 : (remoteList.foldl (phase1Step sha256Hex now (tombRefsOf tombstones) s1)
      (s1, [])).2 = remoteList.filterMap (emptyAdd sha256Hex now) := by
    rw [phase1_toAdd, List.nil_append]
    exact List.filterMap_congr
      (phase1AddFn_pass2 sha256Hex now remoteList tombstones s0 hnd hI)
  have hFs1 : applyRemoteStore sha256Hex now remoteList tombstones s1
      = bulkPut sha256Hex (remoteList.filterMap (emptyAdd sha256Hex now)) s1 := by
    rw [applyRemoteStore_eq, h2, htoAdd2]
  have hstore : applyRemoteStore sha256Hex now remoteList tombstones s1 = s1 := by
    by_cases hE : remoteList.filterMap (emptyAdd sha256Hex now) = []
    · rw [hFs1, hE]
      rfl
    · have hfe : ((remoteList.foldl (phase1Step sha256Hex now (tombRefsOf tombstones) s0)
          (s0, [])).2).filter (fun x => x.id == "")
          = remoteList.filterMap (emptyAdd sha256Hex now) := by
        rw [phase1_toAdd, List.nil_append]
        exact toAdd_filter_empty sha256Hex now (tombRefsOf tombstones) s0 hTR remoteList
      obtain ⟨y, hy⟩ := Option.isSome_iff_exists.mp (List.getLast?_isSome.mpr hE)
      have hat_empty : entryAt s1 "" = some (ensureContentHash sha256Hex y) := by
        rw [hs1, applyRemoteStore_eq, bulkPut_entryAt, hfe, hy]
      have hmem_empty : ("" : String) ∈ s1.map Entry.id :=
        id_mem_of_entryAt_isSome (by rw [hat_empty]; rfl)
      have hidsF : (bulkPut sha256Hex (remoteList.filterMap (emptyAdd sha256Hex now))
          s1).map Entry.id = s1.map Entry.id := by
        apply bulkPut_ids
        intro x hx
        rw [mem_emptyAdd hx]
        exact hmem_empty
      rw [hFs1]
      refine store_ext hidsF (by rw [hidsF]; exact hnd1) ?_
      intro i
      rw [bulkPut_entryAt]
      by_cases hi : i = ""
      · subst hi
        have hfilt : (remoteList.filterMap (emptyAdd sha256Hex now)).filter
            (fun x => x.id == "") = remoteList.filterMap (emptyAdd sha256Hex now) :=
          List.filter_eq_self.mpr (fun a ha => by simp [mem_emptyAdd ha])
        rw [hfilt, hy, hat_empty]
      · have hfilt : (remoteList.filterMap (emptyAdd sha256Hex now)).filter
            (fun x => x.id == i) = [] :=
          List.filter_eq_nil_iff.mpr (fun a ha => by
            simp only [mem_emptyAdd ha, beq_iff_eq]
            exact fun h => hi h.symm)
        rw [hfilt]
        rfl
  exact ⟨hstore, by unfold applyRemote; rw [hstore]⟩

end Cache

/-! ## Claims about the seed and storage layers -/

/-- C1. Storing a valid mnemonic with `storeSeed` under a PRF-derived
key and then decrypting the stored account record with the same key —
as `retrieveSeed` does once `authenticateWithPRF` has produced that
key — returns exactly the original mnemonic. -/
theorem claim_C1_seed_roundtrip (sha : List Bool → List Bool) (mnemonic : List Nat)
    (prfEncryptionKey credentialId : String) (now : Nat)
    (st st' : Option AccountRecord)
    (hv : isValidSeed sha mnemonic = true)
    (hs : storeSeed sha mnemonic prfEncryptionKey credentialId now st = .ok st') :
    retrieveSeed st' prfEncryptionKey = .ok mnemonic := by
  unfold storeSeed at hs
  rw [hv] at hs
  simp only [Bool.not_true, Bool.false_eq_true, if_false, Except.ok.injEq] at hs
  subst hs
  simp [retrieveSeed, decryptJson, encryptJson, Except.map]

/-- C8. If the passkey create ceremony fails during
`protectAccountWithPasskey` (cancelled, timed out, or PRF unsupported),
no persisted state is modified: the stored account record, the manual
mnemonic slot and the passkey metadata read back unchanged — the whole
localStorage state is untouched. -/
theorem claim_C8_protect_fail_soft (ceremony : Except String (String × String))
    (seed : List Nat) (displayName : String) (now : Nat) (st : LocalStore) (msg : String)
    (hc : ceremony = .error msg) :
    (PasskeyProtection.protectAccountWithPasskey ceremony seed displayName now st).1 = st ∧
    (PasskeyProtection.protectAccountWithPasskey ceremony seed displayName now st).2
      = .error msg ∧
    getItem ACCOUNT_STORAGE_KEY
        (PasskeyProtection.protectAccountWithPasskey ceremony seed displayName now st).1
      = getItem ACCOUNT_STORAGE_KEY st ∧
    getItem MANUAL_SEED_STORAGE_KEY
        (PasskeyProtection.protectAccountWithPasskey ceremony seed displayName now st).1
      = getItem MANUAL_SEED_STORAGE_KEY st ∧
    getItem PASSKEY_STORAGE_KEY
        (PasskeyProtection.protectAccountWithPasskey ceremony seed displayName now st).1
      = getItem PASSKEY_STORAGE_KEY st := by
  subst hc
  refine ⟨rfl, rfl, rfl, rfl, rfl⟩

/-- C9. Every phrase `generateSeed` produces is accepted by
`isValidSeed`, has 12 words, and encodes the 128 entropy bits (they are
recoverable from the phrase, so distinct entropy gives distinct
phrases). -/
theorem claim_C9_generated_seed_valid (sha : List Bool → List Bool) (entropy : List Bool)
    (hent : entropy.length = 128) (hsha : ∀ l, (sha l).length = 256) :
    isValidSeed sha (generateSeed sha entropy) = true ∧
    (generateSeed sha entropy).length = 12 ∧
    ((generateSeed sha entropy).flatMap (natToBits 11)).take 128 = entropy ∧
    (∀ e2 : List Bool, e2.length = 128 →
        generateSeed sha e2 = generateSeed sha entropy → e2 = entropy) := by
  obtain ⟨h1, h2, h3⟩ := generateSeed_valid sha entropy hent (hsha entropy)
  refine ⟨h1, h2, h3, ?_⟩
  intro e2 he2 heq
  have r2 := (generateSeed_valid sha e2 he2 (hsha e2)).2.2
  rw [heq, h3] at r2
  exact r2.symm

/-! ## Concrete instances: the clear-keys defect, witnesses and
counterexamples -/

namespace Cache

/-- Hash function used in concrete instances (any function works for
the store logic; content hashes only need to be deterministic). -/
def identHash : String → String := fun s => s

/-- A remote snapshot row with fixed content fields. -/
def sampleRemote (tx : String) : RemoteEntry :=
  { txid := tx, title := "T", author := "A", edition := "1", format := "book",
    dateRead := "2024-01-01", coverImage := "", mimeType := "" }

/-- A store entry with fixed content fields. -/
def sampleEntry (i : String) (tx : Option String) (dr : String) (st : String)
    (p sr : Bool) : Entry :=
  { id := i, txid := tx, title := "T", author := "A", edition := "1", format := "book",
    dateRead := dr, coverImage := "", mimeType := "", contentHash := "",
    createdAt := 0, status := st, pending := p, seenRemote := sr, tombstonedAt := none }

/-- Witness for C2 at a concrete input: one remote row and one
tombstone share the reference "t0"; the record ends tombstoned and off
the active list. -/
theorem claim_C2_witness :
    (([] : List Entry).map Entry.id).Nodup ∧ ("t0" : String) ≠ "" ∧
    (∃ r ∈ [sampleRemote "t0"], r.txid = "t0") ∧
    (∃ tdel ∈ [Tombstone.mk "t0" (some "t0")], tdel.ref = some "t0") ∧
    ((∀ a ∈ applyRemoteStore identHash 9 [sampleRemote "t0"]
          [Tombstone.mk "t0" (some "t0")] [],
        a.txid = some "t0" → a.status = "tombstoned" ∧ a.status ≠ "confirmed") ∧
      (∀ a ∈ applyRemote identHash 9 [sampleRemote "t0"]
          [Tombstone.mk "t0" (some "t0")] [],
        a.txid ≠ some "t0")) :=
  ⟨by decide, by decide, by decide, by decide,
    claim_C2_tombstone_precedence identHash 9 [sampleRemote "t0"]
      [Tombstone.mk "t0" (some "t0")] [] "t0" (by decide) (by decide)
      (by decide) (by decide)⟩

/-- Witness for C4 at a concrete input: one live remote row into an
empty store; the second pass changes nothing. -/
theorem claim_C4_witness :
    ((([] : List Entry).map Entry.id).Nodup) ∧ SyncInv [] ∧
    (applyRemoteStore identHash 4 [sampleRemote "t1"] [Tombstone.mk "zz" (some "t2")]
        (applyRemoteStore identHash 4 [sampleRemote "t1"]
          [Tombstone.mk "zz" (some "t2")] [])
      = applyRemoteStore identHash 4 [sampleRemote "t1"]
          [Tombstone.mk "zz" (some "t2")] [] ∧
     applyRemote identHash 4 [sampleRemote "t1"] [Tombstone.mk "zz" (some "t2")]
        (applyRemoteStore identHash 4 [sampleRemote "t1"]
          [Tombstone.mk "zz" (some "t2")] [])
      = applyRemote identHash 4 [sampleRemote "t1"]
          [Tombstone.mk "zz" (some "t2")] []) :=
  ⟨by decide, fun e he => absurd he (List.not_mem_nil e),
    claim_C4_reconcile_idempotent identHash 4 [sampleRemote "t1"]
      [Tombstone.mk "zz" (some "t2")] [] (by decide)
      (fun e he => absurd he (List.not_mem_nil e))⟩

/-- Counterexample to C4 over arbitrary cache states: the key "t"
carries the foreign txid "u", so the first pass drops the record
carrying "u" (its key is overwritten by the fresh row for "t") and the
second pass re-adds a row for "u" — the two active sets differ. -/
theorem claim_C4_counterexample :
    ¬(applyRemote identHash 0 [sampleRemote "t", sampleRemote "u"] []
        (applyRemoteStore identHash 0 [sampleRemote "t", sampleRemote "u"] []
          [sampleEntry "t" (some "u") "2024-01-01" "confirmed" false true])
      = applyRemote identHash 0 [sampleRemote "t", sampleRemote "u"] []
          [sampleEntry "t" (some "u") "2024-01-01" "confirmed" false true]) := by
  decide

/-- Key order of the two-record store used as C5's witness input. -/
theorem c5sorted_ids :
    (([sampleEntry "a1" none "2024-05-05" "confirmed" false true,
       sampleEntry "b2" none "2024-01-01" "confirmed" false true].map
         Entry.id).Pairwise (· < ·)) := by
  have h1 : ([sampleEntry "a1" none "2024-05-05" "confirmed" false true,
      sampleEntry "b2" none "2024-01-01" "confirmed" false true].map Entry.id)
      = ["a1", "b2"] := by decide
  rw [h1]
  refine List.pairwise_cons.mpr ⟨?_, ?_⟩
  · intro b hb
    rw [List.mem_singleton.mp hb]
    exact (keyLt_iff "a1" "b2").mp (by decide)
  · simp

/-- Witness for C5 at a concrete input: a two-record key-sorted store
with one fresh remote row; the returned list is the non-tombstoned
records in key order. -/
theorem claim_C5_witness :
    (([sampleEntry "a1" none "2024-05-05" "confirmed" false true,
        sampleEntry "b2" none "2024-01-01" "confirmed" false true].map
          Entry.id).Pairwise (· < ·)) ∧
    ((∀ a, a ∈ applyRemote identHash 3 [sampleRemote "n1"] []
            [sampleEntry "a1" none "2024-05-05" "confirmed" false true,
             sampleEntry "b2" none "2024-01-01" "confirmed" false true] ↔
        a ∈ applyRemoteStore identHash 3 [sampleRemote "n1"] []
            [sampleEntry "a1" none "2024-05-05" "confirmed" false true,
             sampleEntry "b2" none "2024-01-01" "confirmed" false true] ∧
          a.status ≠ "tombstoned") ∧
      ((applyRemote identHash 3 [sampleRemote "n1"] []
          [sampleEntry "a1" none "2024-05-05" "confirmed" false true,
           sampleEntry "b2" none "2024-01-01" "confirmed" false true]).map
            Entry.id).Pairwise (· < ·)) :=
  ⟨c5sorted_ids,
    claim_C5_active_set_key_order identHash 3 [sampleRemote "n1"] []
      [sampleEntry "a1" none "2024-05-05" "confirmed" false true,
       sampleEntry "b2" none "2024-01-01" "confirmed" false true] c5sorted_ids⟩

/-- Counterexample to C5's ordering clause: two live records whose key
order disagrees with `dateRead`-descending order come back in key
order, so the returned list is not sorted by `dateRead` descending. -/
theorem claim_C5_counterexample :
    ¬(((applyRemote identHash 0 [] []
          [sampleEntry "a1" none "2024-01-01" "confirmed" false true,
           sampleEntry "b2" none "2024-05-05" "confirmed" false true]).map
            Entry.dateRead).Pairwise (fun a b => keyLt a b = false)) := by
  decide

/-- Counterexample to C7's lookup clause: a tombstoned record earlier
in key order shares the fingerprint with a live record; the duplicate
check takes the first index match, sees it tombstoned, and reports no
duplicate even though a live match exists. -/
theorem claim_C7_counterexample :
    ({ sampleEntry "b2" none "2024-01-01" "confirmed" false true with
        contentHash := computeContentHash identHash
          (sampleEntry "p9" none "2024-01-01" "confirmed" false true) }
      ∈ [{ sampleEntry "a1" none "2024-01-01" "tombstoned" false true with
            contentHash := computeContentHash identHash
              (sampleEntry "p9" none "2024-01-01" "confirmed" false true) },
          { sampleEntry "b2" none "2024-01-01" "confirmed" false true with
            contentHash := computeContentHash identHash
              (sampleEntry "p9" none "2024-01-01" "confirmed" false true) }]) ∧
    detectDuplicate identHash (sampleEntry "p9" none "2024-01-01" "confirmed" false true)
        [{ sampleEntry "a1" none "2024-01-01" "tombstoned" false true with
            contentHash := computeContentHash identHash
              (sampleEntry "p9" none "2024-01-01" "confirmed" false true) },
          { sampleEntry "b2" none "2024-01-01" "confirmed" false true with
            contentHash := computeContentHash identHash
              (sampleEntry "p9" none "2024-01-01" "confirmed" false true) }]
      = none := by
  decide

/-- Witness for C10 at a concrete input: a tombstoned synced record
whose txid reappears as a live remote row; it stays tombstoned and off
the active list. -/
theorem claim_C10_witness :
    (([sampleEntry "t9" (some "t9") "2024-01-01" "tombstoned" false true].map
        Entry.id).Nodup) ∧
    sampleEntry "t9" (some "t9") "2024-01-01" "tombstoned" false true
      ∈ [sampleEntry "t9" (some "t9") "2024-01-01" "tombstoned" false true] ∧
    (sampleEntry "t9" (some "t9") "2024-01-01" "tombstoned" false true).txid = some "t9" ∧
    ("t9" : String) ≠ "" ∧
    (sampleEntry "t9" (some "t9") "2024-01-01" "tombstoned" false true).id = "t9" ∧
    (sampleEntry "t9" (some "t9") "2024-01-01" "tombstoned" false true).status
      = "tombstoned" ∧
    (sampleEntry "t9" (some "t9") "2024-01-01" "tombstoned" false true).pending = false ∧
    ((∃ a, entryAt (applyRemoteStore identHash 6 [sampleRemote "t9"] []
          [sampleEntry "t9" (some "t9") "2024-01-01" "tombstoned" false true])
          (sampleEntry "t9" (some "t9") "2024-01-01" "tombstoned" false true).id = some a ∧
        a.status = "tombstoned") ∧
      (∀ a ∈ applyRemote identHash 6 [sampleRemote "t9"] []
          [sampleEntry "t9" (some "t9") "2024-01-01" "tombstoned" false true],
        a.id ≠ (sampleEntry "t9" (some "t9") "2024-01-01" "tombstoned" false true).id)) :=
  ⟨by decide, by decide, by decide, by decide, by decide, by decide, by decide,
    claim_C10_tombstoned_stays identHash 6 [sampleRemote "t9"] []
      [sampleEntry "t9" (some "t9") "2024-01-01" "tombstoned" false true]
      (sampleEntry "t9" (some "t9") "2024-01-01" "tombstoned" false true) "t9"
      (by decide) (by decide) (by decide) (by decide) (by decide) (by decide) (by decide)⟩

/-- Counterexample to C10 over arbitrary local entries: a tombstoned
record whose primary key equals a live remote txid while its own txid
differs is overwritten by `bulkPut`, and its key comes back confirmed
and active. -/
theorem claim_C10_counterexample :
    (sampleEntry "x1" (some "t1") "2024-01-01" "tombstoned" false true).status
        = "tombstoned" ∧
    (sampleEntry "x1" (some "t1") "2024-01-01" "tombstoned" false true).pending = false ∧
    (entryAt (applyRemoteStore identHash 0 [sampleRemote "x1"] []
          [sampleEntry "x1" (some "t1") "2024-01-01" "tombstoned" false true])
        "x1").map Entry.status = some "confirmed" ∧
    (∃ a ∈ applyRemote identHash 0 [sampleRemote "x1"] []
        [sampleEntry "x1" (some "t1") "2024-01-01" "tombstoned" false true],
      a.id = "x1") := by
  decide

end Cache

/-- Seed-phrase hash used in concrete instances: a fixed 256-bit
digest (the BIP39 layer only needs its length and determinism). -/
def shaZ : List Bool → List Bool := fun _ => List.replicate 256 false

/-- The all-zero 12-word mnemonic, checksum-valid under `shaZ`. -/
def c1mnemonic : List Nat := List.replicate 12 0

/-- The v2 account record `storeSeed` writes for `c1mnemonic` under
key "k1" at time 7. -/
def c1rec : AccountRecord :=
  { version := 2
    enc := encryptJson "k1" { mnemonic := c1mnemonic, created := 7, wordCount := 12 }
    credentialId := "cred1"
    derivation := "prf"
    wordCount := 12
    created := 7 }

set_option maxRecDepth 8000 in
/-- Witness for C1 at a concrete input: store the all-zero valid
mnemonic under key "k1", read it back with the same key. -/
theorem claim_C1_witness :
    isValidSeed shaZ c1mnemonic = true ∧
    storeSeed shaZ c1mnemonic "k1" "cred1" 7 none = .ok (some c1rec) ∧
    retrieveSeed (some c1rec) "k1" = .ok c1mnemonic :=
  ⟨by decide, by rfl,
    claim_C1_seed_roundtrip shaZ c1mnemonic "k1" "cred1" 7 none (some c1rec)
      (by decide) (by rfl)⟩

/-- Witness for C8 at a concrete input: a cancelled create ceremony on
a store holding an account record leaves the store untouched. -/
theorem claim_C8_witness :
    ((Except.error "cancelled" : Except String (String × String)) = .error "cancelled") ∧
    ((PasskeyProtection.protectAccountWithPasskey (.error "cancelled") c1mnemonic "nm" 5
        [(ACCOUNT_STORAGE_KEY, LSVal.str "acct0")]).1
      = [(ACCOUNT_STORAGE_KEY, LSVal.str "acct0")] ∧
     (PasskeyProtection.protectAccountWithPasskey (.error "cancelled") c1mnemonic "nm" 5
        [(ACCOUNT_STORAGE_KEY, LSVal.str "acct0")]).2 = .error "cancelled" ∧
     getItem ACCOUNT_STORAGE_KEY
        (PasskeyProtection.protectAccountWithPasskey (.error "cancelled") c1mnemonic "nm" 5
          [(ACCOUNT_STORAGE_KEY, LSVal.str "acct0")]).1
      = getItem ACCOUNT_STORAGE_KEY [(ACCOUNT_STORAGE_KEY, LSVal.str "acct0")] ∧
     getItem MANUAL_SEED_STORAGE_KEY
        (PasskeyProtection.protectAccountWithPasskey (.error "cancelled") c1mnemonic "nm" 5
          [(ACCOUNT_STORAGE_KEY, LSVal.str "acct0")]).1
      = getItem MANUAL_SEED_STORAGE_KEY [(ACCOUNT_STORAGE_KEY, LSVal.str "acct0")] ∧
     getItem PASSKEY_STORAGE_KEY
        (PasskeyProtection.protectAccountWithPasskey (.error "cancelled") c1mnemonic "nm" 5
          [(ACCOUNT_STORAGE_KEY, LSVal.str "acct0")]).1
      = getItem PASSKEY_STORAGE_KEY [(ACCOUNT_STORAGE_KEY, LSVal.str "acct0")]) :=
  ⟨rfl, claim_C8_protect_fail_soft (.error "cancelled") c1mnemonic "nm" 5
    [(ACCOUNT_STORAGE_KEY, LSVal.str "acct0")] "cancelled" rfl⟩

set_option maxRecDepth 8000 in
/-- Witness for C9 at a concrete input: the all-zero 128-bit entropy
yields a valid 12-word phrase that round-trips the entropy. -/
theorem claim_C9_witness :
    (List.replicate 128 false).length = 128 ∧
    (∀ l, (shaZ l).length = 256) ∧
    (isValidSeed shaZ (generateSeed shaZ (List.replicate 128 false)) = true ∧
      (generateSeed shaZ (List.replicate 128 false)).length = 12 ∧
      ((generateSeed shaZ (List.replicate 128 false)).flatMap (natToBits 11)).take 128
        = List.replicate 128 false ∧
      (∀ e2 : List Bool, e2.length = 128 →
        generateSeed shaZ e2 = generateSeed shaZ (List.replicate 128 false) →
        e2 = List.replicate 128 false)) :=
  ⟨by decide, fun l => by simp [shaZ],
    claim_C9_generated_seed_valid shaZ (List.replicate 128 false) (by decide)
      (fun l => by simp [shaZ])⟩

/-- The fully-populated localStorage state for C3: every storage
manager key holds a value, and the PRF key cache has been written
through `storePRFKey` (which uses the `storage_constants.js` key). -/
def c3store : LocalStore :=
  storePRFKey "prf0"
    [(StorageManager.KEY_ACCOUNT, LSVal.str "v1"),
     (StorageManager.KEY_SYM_KEY, LSVal.str "v2"),
     (StorageManager.KEY_SESSION_SEED, LSVal.str "v3"),
     (StorageManager.KEY_MANUAL_SEED, LSVal.str "v4"),
     (StorageManager.KEY_PASSKEY, LSVal.str "v5"),
     (StorageManager.KEY_SEED_SHOWN, LSVal.str "v6"),
     (StorageManager.KEY_PRF_KEY, LSVal.str "v7"),
     (StorageManager.KEY_EVM_WALLET, LSVal.str "v8")]

/-- C3 (code bug). The storage manager's clear paths remove every key
it enumerates, but the cached PRF-derived key is written under
`storage_constants.js`'s `'bookish.prfKey'` while the manager clears
`'bookish.prf.key'` — the two constants differ, so both `clearAll` and
`clearSession` (the logout path) leave the cached PRF key readable. -/
theorem claim_C3_clear_misses_prf_key :
    (∀ k ∈ StorageManager.STORAGE_KEYS_VALUES,
        getItem k (StorageManager.clearAll c3store) = none) ∧
    (∀ k ∈ StorageManager.STORAGE_KEYS_VALUES,
        getItem k (StorageManager.clearSession c3store) = none) ∧
    getItem PRF_KEY_STORAGE_KEY (StorageManager.clearAll c3store)
      = some (LSVal.str "prf0") ∧
    getItem PRF_KEY_STORAGE_KEY (StorageManager.clearSession c3store)
      = some (LSVal.str "prf0") ∧
    ¬(StorageManager.KEY_PRF_KEY = PRF_KEY_STORAGE_KEY) := by
  decide

end Bookish
